import Mathlib

/-!
Shallow embedding of the lock-free buddy allocator (pskrgag/lock_free_buddy_allocator),
restricted to sequential executions: `compare_exchange` on a container word always
succeeds when no other thread runs, so each CAS retry loop collapses to a single
load/compute/store pass.  Machine words (`usize` container states) are modelled as
`Nat`; all bit operations used by the source (`|`, `&`, `<<`, `& !mask`) are total on
`Nat` and agree with the 64-bit machine operations on the values that actually occur
(all state words stay below `2 ^ 47`).  `val & !mask` is modelled as
`val ^^^ (val &&& mask)`, which clears exactly the `mask` bits.

Recursive walks of the source are embedded with an explicit fuel argument so that
every definition is structurally recursive and evaluates inside the kernel; each
caller passes fuel that provably dominates the walk length, and lemmas are stated
for arbitrary sufficient fuel.
-/

set_option linter.unusedVariables false

namespace LFB

/-! ### Packed state word operations, from `src/state.rs` and the identical
copies in `src/buddy_alloc.rs` (lines 39-134). -/

/-- COALESCE_LEFT constant from state.rs line 22. -/
def COALESCE_LEFT : Nat := 0x8

/-- COALESCE_RIGHT constant from state.rs line 23. -/
def COALESCE_RIGHT : Nat := 0x4

/-- LEFT_OCCUPIED constant from state.rs line 25. -/
def LEFT_OCCUPIED : Nat := 0x2

/-- RIGHT_OCCUPIED constant from state.rs line 26. -/
def RIGHT_OCCUPIED : Nat := 0x1

/-- Bit offset of the 5-bit field of leaf container slot `pos` (state.rs `leaf_offset`):
7 bits for the non-leaf slots, then 5 bits per leaf slot. -/
def leaf_offset (pos : Nat) : Nat := 7 + 5 * (pos - 8)

/-- state.rs/buddy_alloc.rs `is_allocable`. -/
def is_allocable (val pos : Nat) : Bool :=
  if pos < 8 then val &&& (0x1 <<< (pos - 1)) == 0
  else val &&& ((0x1F <<< 7) <<< (5 * (pos - 8))) == 0

/-- state.rs/buddy_alloc.rs `is_occupied`.  Note the source's leaf branch shifts by
`5 * (pos - 7)`, i.e. it tests absolute bit `6 + 5*(pos-7) = leaf_offset pos + 4`. -/
def is_occupied (val pos : Nat) : Bool :=
  if pos < 8 then val &&& (0x1 <<< (pos - 1)) != 0
  else val &&& ((0x1 <<< 6) <<< (5 * (pos - 7))) != 0

/-- buddy_alloc.rs `lock_not_leaf`. -/
def lock_not_leaf (val pos : Nat) : Nat := val ||| (0x1 <<< (pos - 1))

/-- buddy_alloc.rs `lock_leaf` (mask 0x13 = occupy_right | occupy_left | bit 4). -/
def lock_leaf (val pos : Nat) : Nat := val ||| (0x13 <<< leaf_offset pos)

/-- Clearing the `mask` bits of `val`: the model of the source's `val & !mask`
on machine words (`v ^^^ (v &&& m)` and `v & !m` agree bit by bit). -/
def and_not (val mask : Nat) : Nat := val ^^^ (val &&& mask)

/-- buddy_alloc.rs `unlock_not_leaf` (`val & !(0x1 << (pos-1))`). -/
def unlock_not_leaf (val pos : Nat) : Nat := and_not val (0x1 <<< (pos - 1))

/-- buddy_alloc.rs `unlock_leaf` (`val & !(0x13 << leaf_offset pos)`). -/
def unlock_leaf (val pos : Nat) : Nat := and_not val (0x13 <<< leaf_offset pos)

/-- buddy_alloc.rs `clean_left_coalesce`. -/
def clean_left_coalesce (val pos : Nat) : Nat :=
  and_not val (COALESCE_LEFT <<< leaf_offset pos)

/-- buddy_alloc.rs `clean_rigth_coalesce` (source spelling kept). -/
def clean_rigth_coalesce (val pos : Nat) : Nat :=
  and_not val (COALESCE_RIGHT <<< leaf_offset pos)

/-- buddy_alloc.rs `left_coalesce`. -/
def left_coalesce (val pos : Nat) : Nat := val ||| (COALESCE_LEFT <<< leaf_offset pos)

/-- buddy_alloc.rs `rigth_coalesce`. -/
def rigth_coalesce (val pos : Nat) : Nat := val ||| (COALESCE_RIGHT <<< leaf_offset pos)

/-- buddy_alloc.rs `occupy_left`. -/
def occupy_left (val pos : Nat) : Nat := val ||| (LEFT_OCCUPIED <<< leaf_offset pos)

/-- buddy_alloc.rs `occupy_rigth`. -/
def occupy_rigth (val pos : Nat) : Nat := val ||| (RIGHT_OCCUPIED <<< leaf_offset pos)

/-- buddy_alloc.rs `is_left_coalescing`: idempotence under the setter is the test. -/
def is_left_coalescing (val pos : Nat) : Bool := val == left_coalesce val pos

/-- buddy_alloc.rs `is_right_coalescing`. -/
def is_right_coalescing (val pos : Nat) : Bool := val == rigth_coalesce val pos

/-- buddy_alloc.rs `clean_left` (clears the occupy-left bit). -/
def clean_left (val pos : Nat) : Nat := and_not val (0x2 <<< leaf_offset pos)

/-- buddy_alloc.rs `clean_rigth` (clears the occupy-right bit). -/
def clean_rigth (val pos : Nat) : Nat := and_not val (0x1 <<< leaf_offset pos)

/-- buddy_alloc.rs `is_occupied_rigth`. -/
def is_occupied_rigth (val pos : Nat) : Bool := val == occupy_rigth val pos

/-- buddy_alloc.rs `is_occupied_left`. -/
def is_occupied_left (val pos : Nat) : Bool := val == occupy_left val pos

/-! ### Tree geometry, from `src/tree.rs`.

A `Node` record carries the fields assigned by `init_tree` (tree.rs lines 110-164):
`pos` (heap index), `order`, `start` (page offset, `start = parent.start +
(1 << node.order())` for a right child), `container_pos` (slot inside the
container), and the identity of its container.  The source identifies a container
by a pointer into the container array together with a back-reference
`container.node` to the container's root node; we identify a container by that
root node's position (`container_root`), which is what every comparison in
`buddy_alloc.rs` actually uses (`node.container.node.pos`). -/

structure Node where
  start : Nat
  pos : Nat
  order : Nat
  container_pos : Nat
  container_root : Nat
deriving Repr, DecidableEq

/-- tree.rs `height()` (lines 181-184): the tree stores `order = H` and reports
`H + 1`. -/
def height (H : Nat) : Nat := H + 1

/-- tree.rs `num_nodes_from_order`: `(1 << order) * 2 - 1`. -/
def node_count (H : Nat) : Nat := (1 <<< H) * 2 - 1

/-- The node record at index 0 of the backing array: `allocate_zeroed` leaves it
all-zero and `init_tree` never writes it.  On the zeroed bytes the accessor
`container_pos()` returns `(0 >> 4) + 1 = 1` and `order()` returns 0. -/
def zero_node : Node :=
  { start := 0, pos := 0, order := 0, container_pos := 1, container_root := 0 }

/-- Fueled worker for the `init_tree` recurrence: the record of node `i` is
determined by the record of its parent `i / 2`.  Fuel `i` always suffices since
the parent index strictly decreases. -/
def node_go (H : Nat) : Nat → Nat → Node
  | _, 0 => zero_node
  | _, 1 => { start := 0, pos := 1, order := H, container_pos := 1, container_root := 1 }
  | 0, _ => zero_node
  | fuel + 1, i =>
    let parent := node_go H fuel (i / 2)
    let order := parent.order - 1
    let start := if parent.pos * 2 == i then parent.start else parent.start + (1 <<< order)
    if (height H - order) % 4 == 1 then
      { start := start, pos := i, order := order, container_pos := 1, container_root := i }
    else
      { start := start, pos := i, order := order,
        container_pos :=
          if parent.pos * 2 == i then parent.container_pos * 2 else parent.container_pos * 2 + 1,
        container_root := parent.container_root }

/-- The node record at index `i` of the tree built for order `H`
(tree.rs `init_tree` plus the zeroed slot 0). -/
def node_rec (H i : Nat) : Node := node_go H i i

/-- Container slot of node `i` (tree.rs `container_pos`). -/
def cpos (H i : Nat) : Nat := (node_rec H i).container_pos

/-- Position of the root node of the container of node `i`
(the source's `node.container.node.pos`). -/
def croot (H i : Nat) : Nat := (node_rec H i).container_root

/-- Page offset of node `i` (tree.rs `start`). -/
def nstart (H i : Nat) : Nat := (node_rec H i).start

/-- Order of node `i`. -/
def norder (H i : Nat) : Nat := (node_rec H i).order

/-- buddy_alloc.rs `level`: `height - (node.size / PAGE_SIZE).ilog2()`, where
`node.size / PAGE_SIZE = 2 ^ order`, so the logarithm is the node's order. -/
def level (H i : Nat) : Nat := height H - norder H i

/-! ### The allocator state machine, from `src/buddy_alloc.rs`.

The mutable state is one machine word per container; we model it as a function
from container identities (container root positions) to words. -/

/-- Allocator state: container root position to packed state word. -/
def St : Type := Nat → Nat

/-- The freshly constructed state: `allocate_zeroed` containers. -/
def zero_st : St := fun _ => 0

/-- Store a word into one container. -/
def setW (st : St) (key w : Nat) : St := fun d => if d = key then w else st d

/-- buddy_alloc.rs `check_brother` (lines 201-213): `cur` is blocked from
unlocking its parent iff its sibling's slot is not allocable.  Node equality in
the source compares positions. -/
def check_brother (H : Nat) (cur val : Nat) : Bool :=
  if (cur / 2) * 2 == cur then !(is_allocable val (cpos H ((cur / 2) * 2 + 1)))
  else if (cur / 2) * 2 + 1 == cur then !(is_allocable val (cpos H ((cur / 2) * 2)))
  else false

/-- Fueled in-container upward lock walk of `try_alloc_node` (lines 485-489):
`while cur.pos != root_pos { val = lock_not_leaf(val, parent(cur).container_pos);
cur = parent(cur) }`.  Fuel `cur` suffices. -/
def lock_chain_go (H : Nat) : Nat → Nat → Nat → Nat → Nat
  | 0, _, _, val => val
  | fuel + 1, root_pos, cur, val =>
    if cur == root_pos then val
    else lock_chain_go H fuel root_pos (cur / 2) (lock_not_leaf val (cpos H (cur / 2)))

/-- The upward lock walk with sufficient fuel. -/
def lock_chain (H root_pos cur val : Nat) : Nat :=
  lock_chain_go H cur root_pos cur val

/-- Fueled body of buddy_alloc.rs `lock_descendants` (lines 403-419).  The walk
descends at most three container levels (it stops on leaf slots `>= 8` or past
the end of the tree), so fuel 4 suffices. -/
def lock_descendants_go (H : Nat) : Nat → Nat → Nat → Nat
  | 0, _, val => val
  | fuel + 1, i, val =>
    if 2 * i ≥ node_count H then val
    else if !(cpos H (2 * i) ≥ 8) then
      let val := lock_not_leaf val (cpos H (2 * i))
      let val := lock_not_leaf val (cpos H (2 * i + 1))
      let val := lock_descendants_go H fuel (2 * i) val
      lock_descendants_go H fuel (2 * i + 1) val
    else
      let val := lock_leaf val (cpos H (2 * i))
      lock_leaf val (cpos H (2 * i + 1))

/-- buddy_alloc.rs `lock_descendants`. -/
def lock_descendants (H i val : Nat) : Nat := lock_descendants_go H 4 i val

/-- buddy_alloc.rs `unlock_descendants` (lines 215-232): its body is identical to
`lock_descendants` (it sets the descendants' lock bits again). -/
def unlock_descendants (H i val : Nat) : Nat := lock_descendants_go H 4 i val

/-- Fueled upward unlock walk shared by `free_node` (lines 353-361) and `unmark`
(lines 292-300): walk from `cur` to the container root, aborting with `exit =
true` at the first node whose sibling is still held (`check_brother`), otherwise
unlocking the parent slot.  Returns the final `cur`, the built word, and the
`exit` flag. -/
def unlock_walk_go (H : Nat) : Nat → Nat → Nat → Nat → Nat × Nat × Bool
  | 0, _, cur, val => (cur, val, false)
  | fuel + 1, root_pos, cur, val =>
    if cur == root_pos then (cur, val, false)
    else if check_brother H cur val then (cur, val, true)
    else unlock_walk_go H fuel root_pos (cur / 2) (unlock_not_leaf val (cpos H (cur / 2)))

/-- The upward unlock walk with sufficient fuel. -/
def unlock_walk (H root_pos cur val : Nat) : Nat × Nat × Bool :=
  unlock_walk_go H cur root_pos cur val

/-- buddy_alloc.rs `mark` (lines 314-337), sequential: set the appropriate
coalesce bit on the parent slot, then recurse on the parent's container root
until the upper bound is reached.  Fuel `i` suffices (the recursion argument is
an ancestor of `i / 2`). -/
def mark_go (H : Nat) : Nat → Nat → Nat → St → St
  | 0, _, _, st => st
  | fuel + 1, i, ub, st =>
    if i < 2 then st
    else
      let p := i / 2
      let d := croot H p
      let w := st d
      let w := if p * 2 == i then left_coalesce w (cpos H p) else rigth_coalesce w (cpos H p)
      let st := setW st d w
      if d != ub then mark_go H fuel d ub st else st

/-- buddy_alloc.rs `mark` with sufficient fuel. -/
def mark (H i ub : Nat) (st : St) : St := mark_go H i i ub st

/-- buddy_alloc.rs `unmark` (lines 234-312), sequential.  When the CAS always
succeeds, the left-child early-exit arm commits and `continue`s, after which the
reload fails the `is_left_coalescing` test and the call returns; the right-child
arm commits, `break`s, and the trailing recursion (line 309) reloads and returns
at the `is_right_coalescing` test.  Both therefore commit the cleared word and
stop, which is how the early-exit arms are rendered here.  Otherwise the upward
unlock walk runs from the parent to the container root, the word is committed,
and `unmark` recurses on the stopping node unless `exit` was set. -/
def unmark_go (H : Nat) : Nat → Nat → Nat → St → St
  | 0, _, _, st => st
  | fuel + 1, i, ub, st =>
    if i < 2 then st
    else
      let p := i / 2
      let d := croot H p
      let w0 := st d
      if p * 2 == i then
        if !(is_left_coalescing w0 (cpos H p)) then st
        else
          let w := clean_left (clean_left_coalesce w0 (cpos H p)) (cpos H p)
          if is_occupied_rigth w (cpos H p) then setW st d w
          else
            let r := unlock_walk H d p w
            let st := setW st d r.2.1
            if r.1 != ub && !r.2.2 then unmark_go H fuel r.1 ub st else st
      else
        if !(is_right_coalescing w0 (cpos H p)) then st
        else
          let w := clean_rigth (clean_rigth_coalesce w0 (cpos H p)) (cpos H p)
          if is_occupied_left w (cpos H p) then setW st d w
          else
            let r := unlock_walk H d p w
            let st := setW st d r.2.1
            if r.1 != ub && !r.2.2 then unmark_go H fuel r.1 ub st else st

/-- buddy_alloc.rs `unmark` with sufficient fuel. -/
def unmark (H i ub : Nat) (st : St) : St := unmark_go H i i ub st

/-- buddy_alloc.rs `free_node` (lines 339-382), sequential: publish coalescing
upward with `mark` when the node's container is not the upper bound's, run the
upward unlock walk from the node, re-mark the in-container descendants via
`unlock_descendants`, unlock the node's own slot, commit, and finish with
`unmark` unless the walk exited on a held sibling. -/
def free_node (H i ub : Nat) (st : St) : St :=
  let st := if croot H i != ub then mark H (croot H i) ub st else st
  let d := croot H i
  let w := st d
  let r := unlock_walk H d i w
  let w := r.2.1
  let w := if !(cpos H i ≥ 8) && 2 * i ≤ node_count H then unlock_descendants H i w else w
  let w := if cpos H i ≥ 8 then unlock_leaf w (cpos H i) else unlock_not_leaf w (cpos H i)
  let st := setW st d w
  if d != ub && !r.2.2 then unmark H d ub st else st

/-- Fueled buddy_alloc.rs `check_parent` (lines 421-462), sequential.  `i` is a
container root; its parent `p = i / 2` sits at in-container depth 3 of the next
container `d = croot p`.  If the parent slot is occupied the conflict
`(p, i)` is reported.  Otherwise the side coalesce bit is cleaned, the side
occupy bit set, and the three slots above the parent (grandparent,
great-grandparent, container root) are locked; the word is committed to `d`
and the walk recurses on `d` unless `d` is the global root.  Fuel `i`
suffices since `croot (i / 2) < i`. -/
def check_parent_go (H : Nat) : Nat → Nat → St → Option (Nat × Nat) × St
  | 0, _, st => (none, st)
  | fuel + 1, i, st =>
    if i < 2 then (none, st)
    else
      let p := i / 2
      let d := croot H p
      let w := st d
      if is_occupied w (cpos H p) then (some (p, i), st)
      else
        let w :=
          if p * 2 == i then occupy_left (clean_left_coalesce w (cpos H p)) (cpos H p)
          else occupy_rigth (clean_rigth_coalesce w (cpos H p)) (cpos H p)
        let w := lock_not_leaf w (cpos H (p / 2))
        let w := lock_not_leaf w (cpos H (p / 4))
        let w := lock_not_leaf w (cpos H d)
        let st := setW st d w
        if d == 1 then (none, st) else check_parent_go H fuel d st

/-- buddy_alloc.rs `check_parent` with sufficient fuel. -/
def check_parent (H i : Nat) (st : St) : Option (Nat × Nat) × St :=
  check_parent_go H i i st

/-- buddy_alloc.rs `try_alloc_node` (lines 469-518), sequential: fail locally
with `Some(node.pos)` if the slot is not allocable; otherwise lock the
in-container ancestor chain, the node itself (leaf or interior with its
descendants), commit, and, unless this container is the root container,
propagate occupancy with `check_parent`, rolling back with `free_node` on a
conflict. -/
def try_alloc_node (H i : Nat) (st : St) : Option Nat × St :=
  let d := croot H i
  let w := st d
  if !(is_allocable w (cpos H i)) then (some i, st)
  else
    let w := lock_chain H d i w
    let w :=
      if cpos H i ≥ 8 then lock_leaf w (cpos H i)
      else
        let w := lock_not_leaf w (cpos H i)
        if 2 * i < node_count H then lock_descendants H i w else w
    let st := setW st d w
    if d == 1 then (none, st)
    else
      match check_parent H d st with
      | (none, st) => (none, st)
      | (some (c, n), st) => (some c, free_node H i n st)

/-- Fueled loop of buddy_alloc.rs `alloc` (lines 175-196): try the current row
node; on success return `self.start + node.start` (note: no `PAGE_SIZE`
scaling in the source), on a conflict at the global root report out-of-memory,
otherwise skip past the conflicting subtree, wrapping once past `last_node`. -/
def alloc_loop (H base start_node last_node started_at : Nat) :
    Nat → Nat → Bool → St → Option Nat × St
  | 0, _, _, st => (none, st)
  | fuel + 1, a, restarted, st =>
    match try_alloc_node H a st with
    | (none, st) => (some (base + nstart H a), st)
    | (some i, st) =>
      if i == 1 then (none, st)
      else
        let a2 := (i + 1) * (1 <<< (level H a - level H i))
        let a3 := if a2 > last_node then start_node else a2
        let restarted2 := if a2 > last_node then true else restarted
        if !restarted2 || a3 < started_at then
          alloc_loop H base start_node last_node started_at fuel a3 restarted2 st
        else (none, st)

/-- Fuel that dominates any single scan of a row (the scan visits each of the at
most `node_count` row nodes at most twice). -/
def alloc_fuel (H : Nat) : Nat := 2 * node_count H + 2

/-- buddy_alloc.rs `alloc` (lines 158-199), sequential, seeded by one
`current_cpu` value.  `num_pages = 2 ^ H` as stored by `BuddyAlloc::new`. -/
def alloc (H base order seed : Nat) (st : St) : Option Nat × St :=
  let num_pages := 1 <<< H
  let pages := 1 <<< order
  let start_node := num_pages / pages
  let last_node := (node_rec H start_node).pos * 2 - 1
  let a := if last_node - start_node != 0 then seed % (last_node - start_node) else 0
  let a := a + start_node
  alloc_loop H base start_node last_node a (alloc_fuel H) a false st

/-- buddy_alloc.rs `free` (lines 387-401), sequential: reject orders above the
tree height, locate the node from the address (dividing by `level_offset`,
which the source scales by `PAGE_SIZE`), and run `free_node` towards the root. -/
def free (H ps base addr order : Nat) (st : St) : Option Unit × St :=
  if order > height H then (none, st)
  else
    let num_pages := 1 <<< H
    let lv := height H - order
    let level_offset := (num_pages / (1 <<< (lv - 1))) * ps
    let pos := (1 <<< (lv - 1)) + (addr - base) / level_offset
    (some (), free_node H pos 1 st)

/-- Rust panics that the embedded arithmetic can hit. -/
inductive RustPanic
  | subUnderflow
  | shiftUnderflow
  | divByZero
deriving Repr, DecidableEq

/-- buddy_alloc.rs `free` with the debug-mode panics made explicit: when the
guard `order > height` passes yet `order = height`, the level is 0 and
`1 << (level - 1)` underflows the `usize` subtraction (in release mode the
masked shift then makes `level_offset` zero and the position division panics);
an address below `self.start` underflows `start - self.start`. -/
def free_checked (H ps base addr order : Nat) (st : St) :
    Except RustPanic (Option Unit × St) :=
  if order > height H then .ok (none, st)
  else
    let lv := height H - order
    if lv = 0 then .error .shiftUnderflow
    else if addr < base then .error .subUnderflow
    else .ok (free H ps base addr order st)

/-- buddy_alloc.rs `alloc` with the `last_node` computation's `u32` underflow
made explicit: `last_node = tree.node(start_node).pos * 2 - 1` panics whenever
that `pos` is zero, which happens exactly when `start_node` indexes the zeroed
slot 0 of the node array. -/
def alloc_checked (H base order seed : Nat) (st : St) :
    Except RustPanic (Option Nat × St) :=
  let num_pages := 1 <<< H
  let pages := 1 <<< order
  let start_node := num_pages / pages
  if (node_rec H start_node).pos * 2 < 1 then .error .subUnderflow
  else .ok (alloc H base order seed st)

/-- Model of `usize::is_power_of_two` (`count_ones() == 1`): equivalent
formulation on `Nat`. -/
def is_power_of_two (n : Nat) : Bool := n != 0 && (n &&& (n - 1)) == 0

/-- buddy_alloc.rs `new` (lines 141-152): reject a non-power-of-two page count
before constructing the tree; only then invoke the backend through
`Tree::new`.  The backend is abstracted to whether its two zeroed allocations
succeed; the second component records whether the backend was invoked at all. -/
def buddy_new (start num_pages : Nat) (backend_ok : Bool) :
    Option (Nat × Nat) × Bool :=
  if !(is_power_of_two num_pages) then (none, false)
  else if backend_ok then (some (start, num_pages), true)
  else (none, true)

/-- Result and state of `n` sequential `alloc order` calls with per-call seeds
`seeds 0, seeds 1, ...`, starting from the fresh allocator; the first component
is the result of the last call (`none` before any call). -/
def alloc_steps (H base order : Nat) (seeds : Nat → Nat) : Nat → Option Nat × St
  | 0 => (none, zero_st)
  | n + 1 => alloc H base order (seeds n) (alloc_steps H base order seeds n).2

/-- Result of the `(n+1)`-st sequential `alloc order` call. -/
def alloc_result (H base order : Nat) (seeds : Nat → Nat) (n : Nat) : Option Nat :=
  (alloc_steps H base order seeds (n + 1)).1

/-! ### `unmark` under concurrent interference.

To reason about the CAS polarity of `unmark`'s early-exit arms we re-embed
`unmark` with its compare-exchange outcomes made explicit.  Between every load
and the following CAS an adversary drawn from a schedule may rewrite the word
of the container being updated (this is the only interference other threads
can produce on that container); the CAS succeeds iff the current word still
equals the loaded one.  The control flow is transcribed arm by arm from
buddy_alloc.rs lines 238-312: in the left-child early-exit arm a *failed* CAS
executes `break 'foo` and then the trailing `if cur.pos != upper_bound.pos &&
!exit` recursion on the unchanged `cur = node`, while a *successful* CAS
executes `continue 'foo`; in the right-child arm the polarities are the
opposite.  Fuel bounds the number of loop iterations; `none` marks fuel
exhaustion.  The returned numeral counts successful CAS commits and the
returned list is the unconsumed part of the schedule. -/
def unmark_cas (H : Nat) :
    Nat → Nat → Nat → List (Nat → Nat) → St → Nat →
      Option (St × Nat × List (Nat → Nat))
  | 0, _, _, _, _, _ => none
  | fuel + 1, i, ub, sched, st, commits =>
    if i < 2 then some (st, commits, sched)
    else
      let p := i / 2
      let d := croot H p
      let w0 := st d
      let g := sched.headD id
      let sched2 := sched.tail
      if p * 2 == i then
        if !(is_left_coalescing w0 (cpos H p)) then some (st, commits, sched)
        else
          let w := clean_left (clean_left_coalesce w0 (cpos H p)) (cpos H p)
          if is_occupied_rigth w (cpos H p) then
            let st2 := setW st d (g (st d))
            if st2 d == w0 then
              unmark_cas H fuel i ub sched2 (setW st2 d w) (commits + 1)
            else
              if i != ub then unmark_cas H fuel i ub sched2 st2 commits
              else some (st2, commits, sched2)
          else
            let r := unlock_walk H d p w
            let st2 := setW st d (g (st d))
            if st2 d == w0 then
              let st3 := setW st2 d r.2.1
              if r.1 != ub && !r.2.2 then unmark_cas H fuel r.1 ub sched2 st3 (commits + 1)
              else some (st3, commits + 1, sched2)
            else unmark_cas H fuel i ub sched2 st2 commits
      else
        if !(is_right_coalescing w0 (cpos H p)) then some (st, commits, sched)
        else
          let w := clean_rigth (clean_rigth_coalesce w0 (cpos H p)) (cpos H p)
          if is_occupied_left w (cpos H p) then
            let st2 := setW st d (g (st d))
            if st2 d == w0 then
              if i != ub then unmark_cas H fuel i ub sched2 (setW st2 d w) (commits + 1)
              else some (setW st2 d w, commits + 1, sched2)
            else unmark_cas H fuel i ub sched2 st2 commits
          else
            let r := unlock_walk H d p w
            let st2 := setW st d (g (st d))
            if st2 d == w0 then
              let st3 := setW st2 d r.2.1
              if r.1 != ub && !r.2.2 then unmark_cas H fuel r.1 ub sched2 st3 (commits + 1)
              else some (st3, commits + 1, sched2)
            else unmark_cas H fuel i ub sched2 st2 commits

/-- An interference function that may touch everything in a container word
except the 5-bit field of leaf slot `q`: exactly the updates other threads can
commit to this container while the freeing thread owns the coalescing
handshake on slot `q`. -/
def field_preserving (g : Nat → Nat) (q : Nat) : Prop :=
  ∀ w t, t < 5 → (g w).testBit (leaf_offset q + t) = w.testBit (leaf_offset q + t)

/-! ### Per-allocation state deltas.

In a sequential execution every word committed by a successful
`try_alloc_node`/`check_parent` pass is the loaded word OR-ed with a mask that
depends only on the node; the following definitions name those masks so that
the state reached by any sequence of row-`k` allocations can be described
container by container. -/

/-- Mask committed into the chain of ancestor containers by `check_parent`,
mirroring `check_parent_go`: the side occupy bit on the boundary parent slot
plus the three lock bits above it, accumulated along the container chain. -/
def cp_mask_go (H : Nat) : Nat → Nat → St
  | 0, _ => fun _ => 0
  | fuel + 1, i =>
    if i < 2 then fun _ => 0
    else
      let p := i / 2
      let d := croot H p
      let m :=
        (if p * 2 == i then LEFT_OCCUPIED <<< leaf_offset (cpos H p)
         else RIGHT_OCCUPIED <<< leaf_offset (cpos H p))
        ||| (0x1 <<< (cpos H (p / 2) - 1))
        ||| (0x1 <<< (cpos H (p / 4) - 1))
        ||| (0x1 <<< (cpos H d - 1))
      if d == 1 then fun dd => if dd = d then m else 0
      else fun dd => (if dd = d then m else 0) ||| cp_mask_go H fuel d dd

/-- `cp_mask` with sufficient fuel. -/
def cp_mask (H i : Nat) : St := cp_mask_go H i i

/-- Mask committed into the node's own container by `try_alloc_node`: the
in-container ancestor chain, the node's own slot, and (for an interior node)
its in-container descendants, all built from the zero word. -/
def local_mask (H i : Nat) : Nat :=
  let w := lock_chain H (croot H i) i 0
  if cpos H i ≥ 8 then lock_leaf w (cpos H i)
  else
    let w := lock_not_leaf w (cpos H i)
    if 2 * i < node_count H then lock_descendants H i w else w

/-- Total state delta of one successful allocation of node `i`. -/
def alloc_delta (H i : Nat) : St := fun d =>
  (if d = croot H i then local_mask H i else 0) |||
  (if croot H i == 1 then 0 else cp_mask H (croot H i) d)

/-- The allocator state in which exactly the row nodes listed in `S` have been
allocated: every container word is the OR of the deltas of the members. -/
def word_of (H : Nat) (S : List Nat) : St := fun d =>
  (S.map (fun n => alloc_delta H n d)).foldr (fun a b => a ||| b) 0

/-- The row of order-`k` nodes: heap positions `[2^(H-k), 2^(H-k+1))`. -/
def row_fs (H k : Nat) : Finset Nat := Finset.Ico (2 ^ (H - k)) (2 ^ (H - k + 1))

/-- Run a sequence of `alloc order` calls with the given seeds from an
arbitrary starting state, collecting the results. -/
def alloc_seq_from (H base order : Nat) : List Nat → St → List (Option Nat) × St
  | [], st => ([], st)
  | seed :: seeds, st =>
    let r := alloc H base order seed st
    let rest := alloc_seq_from H base order seeds r.2
    (r.1 :: rest.1, rest.2)

/-! ### Support descriptions of the committed masks. -/

/-- The in-container ancestor-chain lock mask as a function of the slot: the walk
of `try_alloc_node` locks the slots `q/2`, `q/4`, `q/8` (those that exist) of the
node's own container. -/
def chain_mask (q : Nat) : Nat :=
  (if 2 ≤ q then 1 <<< (q / 2 - 1) else 0) |||
  (if 4 ≤ q then 1 <<< (q / 4 - 1) else 0) |||
  (if 8 ≤ q then 1 <<< (q / 8 - 1) else 0)

/-- The boundary parents visited by `check_parent_go`, in visiting order. -/
def cp_chain (H : Nat) : Nat → Nat → List Nat
  | 0, _ => []
  | fuel + 1, i =>
    if i < 2 then []
    else
      let p := i / 2
      let d := croot H p
      if d == 1 then [p] else p :: cp_chain H fuel d

/-! ## Bit-level toolkit -/

theorem tb_or (a b j : Nat) : (a ||| b).testBit j = (a.testBit j || b.testBit j) :=
  Nat.testBit_or a b j

theorem tb_single (t s j : Nat) : ((2 ^ t) <<< s).testBit j = decide (j = s + t) := by
  rw [Nat.testBit_shiftLeft, Nat.testBit_two_pow]
  by_cases h : s ≤ j
  · by_cases h2 : j = s + t <;> simp [h, h2] <;> omega
  · have : ¬ (j = s + t) := by omega
    simp [h, this]

theorem tb_and_not (a b j : Nat) :
    (and_not a b).testBit j = (a.testBit j && !(b.testBit j)) := by
  rw [and_not, Nat.testBit_xor, Nat.testBit_and]
  rcases a.testBit j with _ | _ <;> rcases b.testBit j with _ | _ <;> rfl

theorem eq_zero_of_tb (a : Nat) (h : ∀ j, a.testBit j = false) : a = 0 :=
  Nat.eq_of_testBit_eq fun j => by rw [h j, Nat.zero_testBit]

theorem and_single_eq_zero_iff (v t s : Nat) :
    (v &&& ((2 ^ t) <<< s) = 0) ↔ v.testBit (s + t) = false := by
  constructor
  · intro h
    have := congrArg (fun x => Nat.testBit x (s + t)) h
    simpa [Nat.testBit_and, tb_single, Nat.zero_testBit] using this
  · intro h
    apply eq_zero_of_tb
    intro j
    rw [Nat.testBit_and, tb_single]
    by_cases hj : j = s + t
    · subst hj; simp [h]
    · simp [hj]

theorem tb_of_lt {x i : Nat} (h : x < 2 ^ i) : x.testBit i = false :=
  Nat.testBit_lt_two_pow h

/-- Bits of the small constant 0x13 = 2^0 + 2^1 + 2^4. -/
theorem tb_19 (u : Nat) : (19 : Nat).testBit u = (decide (u = 0) || decide (u = 1) || decide (u = 4)) := by
  match u with
  | 0 => decide
  | 1 => decide
  | 2 => decide
  | 3 => decide
  | 4 => decide
  | u + 5 =>
    have h1 : (19 : Nat) < 2 ^ 5 := by norm_num
    have h2 : (2 : Nat) ^ 5 ≤ 2 ^ (u + 5) := Nat.pow_le_pow_right (by norm_num) (by omega)
    have := tb_of_lt (x := 19) (i := u + 5) (by omega)
    simp [this]

/-- Bits of the small constant 0x1F = 31. -/
theorem tb_31 (u : Nat) : (31 : Nat).testBit u = decide (u < 5) := by
  match u with
  | 0 => decide
  | 1 => decide
  | 2 => decide
  | 3 => decide
  | 4 => decide
  | u + 5 =>
    have h1 : (31 : Nat) < 2 ^ 5 := by norm_num
    have h2 : (2 : Nat) ^ 5 ≤ 2 ^ (u + 5) := Nat.pow_le_pow_right (by norm_num) (by omega)
    have h3 := tb_of_lt (x := 31) (i := u + 5) (by omega)
    have h4 : ¬ (u + 5 < 5) := by omega
    simp [h3, h4]

theorem tb_shift19 (s j : Nat) :
    ((19 <<< s : Nat)).testBit j =
      (decide (j = s) || decide (j = s + 1) || decide (j = s + 4)) := by
  rw [Nat.testBit_shiftLeft, tb_19]
  by_cases h : s ≤ j
  · have e0 : decide (j - s = 0) = decide (j = s) := decide_eq_decide.mpr (by omega)
    have e1 : decide (j - s = 1) = decide (j = s + 1) := decide_eq_decide.mpr (by omega)
    have e4 : decide (j - s = 4) = decide (j = s + 4) := decide_eq_decide.mpr (by omega)
    simp [h, e0, e1, e4]
  · have h1 : ¬ (j = s) := by omega
    have h2 : ¬ (j = s + 1) := by omega
    have h3 : ¬ (j = s + 4) := by omega
    simp [h, h1, h2, h3]

theorem tb_shift31 (s j : Nat) :
    ((31 <<< s : Nat)).testBit j = (decide (s ≤ j) && decide (j < s + 5)) := by
  rw [Nat.testBit_shiftLeft, tb_31]
  by_cases h : s ≤ j
  · have e0 : decide (j - s < 5) = decide (j < s + 5) := decide_eq_decide.mpr (by omega)
    simp [h, e0]
  · simp [h]

/-- Membership test by idempotence of a single-bit OR, the idiom behind
`is_left_coalescing`, `is_right_coalescing`, `is_occupied_left` and
`is_occupied_rigth`. -/
theorem or_single_self_iff (v t s : Nat) :
    (v == v ||| ((2 ^ t) <<< s)) = v.testBit (s + t) := by
  rcases hb : v.testBit (s + t) with _ | _
  · have hne : v ≠ v ||| ((2 ^ t) <<< s) := by
      intro he
      have hx : (v ||| ((2 ^ t) <<< s)).testBit (s + t) = true := by
        rw [tb_or, tb_single]; simp
      rw [← he, hb] at hx
      cases hx
    simp [hne]
  · have hx : v ||| ((2 ^ t) <<< s) = v := Nat.eq_of_testBit_eq fun j => by
      rw [tb_or, tb_single]
      by_cases hj : j = s + t
      · subst hj; simp [hb]
      · simp [hj]
    rw [hx]; simp

/-! ## Powers of two -/

theorem exists_pow_of_is_power_of_two (n : Nat) (h : is_power_of_two n = true) :
    ∃ k, n = 2 ^ k := by
  simp only [is_power_of_two, Bool.and_eq_true, bne_iff_ne, beq_iff_eq] at h
  obtain ⟨hne, hand⟩ := h
  refine ⟨Nat.log2 n, ?_⟩
  have h1 := Nat.log2_self_le hne
  have h2 := Nat.lt_log2_self (n := n)
  by_contra hne2
  have hgt : 2 ^ Nat.log2 n < n := by omega
  have hb1 : n.testBit (Nat.log2 n) = true := by
    rw [Nat.testBit_to_div_mod]
    have : n / 2 ^ Nat.log2 n = 1 := by
      rw [Nat.pow_succ] at h2
      rw [Nat.div_eq_of_lt_le] <;> omega
    simp [this]
  have hb2 : (n - 1).testBit (Nat.log2 n) = true := by
    rw [Nat.testBit_to_div_mod]
    have : (n - 1) / 2 ^ Nat.log2 n = 1 := by
      rw [Nat.pow_succ] at h2
      rw [Nat.div_eq_of_lt_le] <;> omega
    simp [this]
  have : (n &&& (n - 1)).testBit (Nat.log2 n) = true := by
    rw [Nat.testBit_and, hb1, hb2]; rfl
  rw [hand, Nat.zero_testBit] at this
  cases this

/-! ## Claim C10: construction rejects non-power-of-two page counts -/

/-- Claim C10: `BuddyAlloc::new(start, num_pages, backend)` returns `None`
whenever `num_pages` is not a power of two, without invoking the backend
(hence regardless of whether the backend could satisfy its allocations). -/
theorem buddy_new_rejects_non_pow2 (s n : Nat) (b : Bool) (h : ∀ k, n ≠ 2 ^ k) :
    buddy_new s n b = (none, false) := by
  have hf : is_power_of_two n = false := by
    rcases hb : is_power_of_two n with _ | _
    · rfl
    · obtain ⟨k, hk⟩ := exists_pow_of_is_power_of_two n hb
      exact absurd hk (h k)
  simp [buddy_new, hf]

/-- Witness for C10 at `num_pages = 10` with a backend that would succeed. -/
theorem buddy_new_rejects_non_pow2_witness : buddy_new 0 10 true = (none, false) :=
  buddy_new_rejects_non_pow2 0 10 true (by
    intro k
    match k with
    | 0 => decide
    | 1 => decide
    | 2 => decide
    | 3 => decide
    | k + 4 =>
      have : (2 : Nat) ^ 4 ≤ 2 ^ (k + 4) := Nat.pow_le_pow_right (by norm_num) (by omega)
      omega)

/-! ## Claim C9: `alloc` panics instead of returning OOM for impossible orders -/

/-- Claim C9: for every order with `2 ^ order > N`, `start_node = N / 2^order`
evaluates to 0, the node record at index 0 is the zeroed slot with `pos = 0`,
and the `last_node = pos * 2 - 1` computation underflows, so `alloc` panics
rather than returning out-of-memory. -/
theorem alloc_underflows_on_huge_order (H base order seed : Nat) (st : St)
    (h : 2 ^ H < 2 ^ order) :
    (1 <<< H) / (1 <<< order) = 0 ∧ (node_rec H 0).pos = 0 ∧
      alloc_checked H base order seed st = .error .subUnderflow := by
  have hdiv : (1 <<< H) / (1 <<< order) = 0 := by
    apply Nat.div_eq_of_lt
    simpa [Nat.shiftLeft_eq] using h
  refine ⟨hdiv, rfl, ?_⟩
  simp [alloc_checked, hdiv]
  rfl

/-- Witness for C9 at `H = 2`, `order = 3`. -/
theorem alloc_underflows_on_huge_order_witness :
    (1 <<< 2) / (1 <<< 3) = 0 ∧ (node_rec 2 0).pos = 0 ∧
      alloc_checked 2 0 3 0 zero_st = .error .subUnderflow :=
  alloc_underflows_on_huge_order 2 0 3 0 zero_st (by norm_num)

/-! ## Claim C5: the invalid-order guard of `free` is off by one and panics -/

/-- Claim C5 (code bug): the claim says `free` returns `none` exactly when
`order > H`; the source's guard is `order > height = H + 1`, so `order = H + 1`
passes the guard, makes `level = 0`, and the `1 << (level - 1)` computation
panics instead of rejecting; only orders strictly above `H + 1` are rejected. -/
theorem free_guard_off_by_one (H ps base : Nat) (st : St) :
    free_checked H ps base base (H + 1) st = .error .shiftUnderflow ∧
      ∀ o, H + 1 < o → free_checked H ps base base o st = .ok (none, st) := by
  constructor
  · simp [free_checked, height]
  · intro o ho
    have : height H < o := by simp [height]; omega
    simp [free_checked, this]

/-- Witness for C5 at `H = 2`: `free(base, 3)` panics while `free(base, 4)` is
rejected as invalid. -/
theorem free_guard_off_by_one_witness :
    free_checked 2 4096 0 0 3 zero_st = .error .shiftUnderflow ∧
      free_checked 2 4096 0 0 4 zero_st = .ok (none, zero_st) :=
  ⟨(free_guard_off_by_one 2 4096 0 zero_st).1,
   (free_guard_off_by_one 2 4096 0 zero_st).2 4 (by norm_num)⟩

/-! ## Claim C1: the returned address is not scaled by PAGE_SIZE -/

/-- Claim C1 (code bug): with `H = 2`, `PAGE_SIZE = 4096`, `region_base = 0` and
cpu seed 1, `alloc(0)` succeeds on node 5 (page offset `start = 1`) and returns
`region_base + start = 1`, not `region_base + start * PAGE_SIZE = 4096`; the
returned value is not even 4096-aligned. -/
theorem alloc_returns_unscaled_offset :
    (alloc 2 0 0 1 zero_st).1 = some (0 + nstart 2 5) ∧ nstart 2 5 = 1 ∧
      0 + nstart 2 5 * 4096 = 4096 ∧ (1 : Nat) ≠ 4096 ∧ 1 % (1 * 4096) ≠ 0 := by
  decide

/-! ## Claim C2: live byte intervals of two sequential allocations intersect -/

/-- Claim C2 (code bug): from a fresh `H = 2` allocator with `PAGE_SIZE = 4096`
and `region_base = 0`, two sequential `alloc(0)` calls (both seeded 0) return
the page-offset addresses 0 and 1; the byte intervals
`[0, 0 + 2^0 * 4096)` and `[1, 1 + 2^0 * 4096)` of these two live allocations
share the point 1, so they are not disjoint. -/
theorem alloc_intervals_intersect :
    (alloc 2 0 0 0 zero_st).1 = some 0 ∧
      (alloc 2 0 0 0 (alloc 2 0 0 0 zero_st).2).1 = some 1 ∧
      (0 ≤ 1 ∧ 1 < 0 + 1 * 4096) ∧ (1 ≤ 1 ∧ 1 < 1 + 1 * 4096) := by
  decide

/-! ## Claim C4: `free(alloc(k), k)` frees the wrong node -/

/-- Claim C4 (code bug): with `H = 2`, `PAGE_SIZE = 4096`, `region_base = 0`,
`alloc(0)` seeded 1 returns address 1 (node 5), but `free(1, 0)` maps address 1
to position `4 + 1/4096 = 4` and frees node 4, leaving node 5 allocated.  From
the fresh pre-state the four-call sequence `alloc(0)` (all seeds 0) succeeds
with `[0, 1, 2, 3]`; after the alloc/free round trip the same four-call
sequence reaches out-of-memory on its fourth call. -/
theorem free_after_alloc_loses_a_page :
    (alloc 2 0 0 1 zero_st).1 = some 1 ∧
      (free 2 4096 0 1 0 (alloc 2 0 0 1 zero_st).2).1 = some () ∧
      (alloc_seq_from 2 0 0 [0, 0, 0, 0] zero_st).1 =
        [some 0, some 1, some 2, some 3] ∧
      (alloc_seq_from 2 0 0 [0, 0, 0, 0]
          (free 2 4096 0 1 0 (alloc 2 0 0 1 zero_st).2).2).1 =
        [some 0, some 2, some 3, none] := by
  decide

/-! ## Claim C7: actual layout of the 5-bit leaf field -/

/-- Counterexample to claim C7 as stated: the claim places `lock` at field bit 2,
`coalesce_right` at bit 3 and `coalesce_left` at bit 4 with every setter OR-ing
only its own bit; but for slot 8 the `left_coalesce` setter produces bit
`7 + 3`, not `7 + 4`, and `lock_leaf` does not produce the single bit `7 + 2`. -/
theorem leaf_field_layout_counterexample :
    left_coalesce 0 8 ≠ 2 ^ (7 + 4) ∧ left_coalesce 0 8 = 2 ^ (7 + 3) ∧
      lock_leaf 0 8 ≠ 2 ^ (7 + 2) ∧ lock_leaf 0 8 = 2 ^ 7 + 2 ^ 8 + 2 ^ 11 := by
  decide

/-- Claim C7 (amended): the 5-bit field of leaf slot `p` starts at bit
`7 + 5 * (p - 8)` and encodes, low to high, occupy_right (bit 0), occupy_left
(bit 1), coalesce_right (bit 2), coalesce_left (bit 3) and lock (bit 4); the
four occupy/coalesce setters OR in exactly their own bit, while `lock_leaf`
ORs the lock bit together with both occupy bits (mask 0x13), and the leaf
occupied indication tests field bit 4. -/
theorem leaf_field_layout (s p j : Nat) (h8 : 8 ≤ p) (h15 : p ≤ 15) :
    (occupy_rigth s p).testBit j = (s.testBit j || decide (j = leaf_offset p)) ∧
      (occupy_left s p).testBit j = (s.testBit j || decide (j = leaf_offset p + 1)) ∧
      (rigth_coalesce s p).testBit j = (s.testBit j || decide (j = leaf_offset p + 2)) ∧
      (left_coalesce s p).testBit j = (s.testBit j || decide (j = leaf_offset p + 3)) ∧
      (lock_leaf s p).testBit j =
        (s.testBit j || decide (j = leaf_offset p) || decide (j = leaf_offset p + 1) ||
          decide (j = leaf_offset p + 4)) ∧
      is_occupied s p = s.testBit (leaf_offset p + 4) := by
  have e1 : (0x1 : Nat) = 2 ^ 0 := rfl
  have e2 : (LEFT_OCCUPIED : Nat) = 2 ^ 1 := rfl
  have e4 : (COALESCE_RIGHT : Nat) = 2 ^ 2 := rfl
  have e8 : (COALESCE_LEFT : Nat) = 2 ^ 3 := rfl
  have er : (RIGHT_OCCUPIED : Nat) = 2 ^ 0 := rfl
  refine ⟨?_, ?_, ?_, ?_, ?_, ?_⟩
  · rw [occupy_rigth, er, tb_or, tb_single, Nat.add_zero]
  · rw [occupy_left, e2, tb_or, tb_single]
  · rw [rigth_coalesce, e4, tb_or, tb_single]
  · rw [left_coalesce, e8, tb_or, tb_single]
  · rw [lock_leaf]
    show (s ||| (19 <<< leaf_offset p)).testBit j = _
    rw [tb_or, tb_shift19]
    rcases hs : s.testBit j with _ | _ <;> simp
  · rw [is_occupied]
    have hnl : ¬ (p < 8) := by omega
    have hidx : 5 * (p - 7) + 6 = leaf_offset p + 4 := by
      unfold leaf_offset; omega
    have key : (s &&& ((0x1 <<< 6) <<< (5 * (p - 7))) = 0) ↔
        s.testBit (leaf_offset p + 4) = false := by
      have h64 : ((0x1 <<< 6 : Nat)) = 2 ^ 6 := rfl
      rw [h64, and_single_eq_zero_iff, hidx]
    simp only [hnl, if_false]
    rcases hb : s.testBit (leaf_offset p + 4) with _ | _
    · have h0 : s &&& ((0x1 <<< 6) <<< (5 * (p - 7))) = 0 := key.mpr hb
      rw [h0]
      decide
    · have h0 : s &&& ((0x1 <<< 6) <<< (5 * (p - 7))) ≠ 0 := fun hc => by
        have hres := key.mp hc
        rw [hb] at hres
        cases hres
      exact bne_iff_ne.mpr h0

/-- Witness for the amended C7 at `s = 5`, `p = 9`, `j = 12`. -/
theorem leaf_field_layout_witness :
    (occupy_rigth 5 9).testBit 12 = ((5 : Nat).testBit 12 || decide (12 = leaf_offset 9)) ∧
      (occupy_left 5 9).testBit 12 = ((5 : Nat).testBit 12 || decide (12 = leaf_offset 9 + 1)) ∧
      (rigth_coalesce 5 9).testBit 12 = ((5 : Nat).testBit 12 || decide (12 = leaf_offset 9 + 2)) ∧
      (left_coalesce 5 9).testBit 12 = ((5 : Nat).testBit 12 || decide (12 = leaf_offset 9 + 3)) ∧
      (lock_leaf 5 9).testBit 12 =
        ((5 : Nat).testBit 12 || decide (12 = leaf_offset 9) || decide (12 = leaf_offset 9 + 1) ||
          decide (12 = leaf_offset 9 + 4)) ∧
      is_occupied 5 9 = (5 : Nat).testBit (leaf_offset 9 + 4) :=
  leaf_field_layout 5 9 12 (by norm_num) (by norm_num)

/-! ## Tree geometry: unfolding and closed forms -/

theorem node_go_succ (H fuel i : Nat) (h2 : 2 ≤ i) :
    node_go H (fuel + 1) i =
      (if (height H - ((node_go H fuel (i / 2)).order - 1)) % 4 == 1 then
        { start :=
            if (node_go H fuel (i / 2)).pos * 2 == i then (node_go H fuel (i / 2)).start
            else (node_go H fuel (i / 2)).start + (1 <<< ((node_go H fuel (i / 2)).order - 1)),
          pos := i, order := (node_go H fuel (i / 2)).order - 1, container_pos := 1,
          container_root := i }
      else
        { start :=
            if (node_go H fuel (i / 2)).pos * 2 == i then (node_go H fuel (i / 2)).start
            else (node_go H fuel (i / 2)).start + (1 <<< ((node_go H fuel (i / 2)).order - 1)),
          pos := i, order := (node_go H fuel (i / 2)).order - 1,
          container_pos :=
            if (node_go H fuel (i / 2)).pos * 2 == i then (node_go H fuel (i / 2)).container_pos * 2
            else (node_go H fuel (i / 2)).container_pos * 2 + 1,
          container_root := (node_go H fuel (i / 2)).container_root }) := by
  match i, h2 with
  | i + 2, _ => rfl

theorem node_go_irrel (H : Nat) : ∀ i f1 f2, i ≤ f1 → i ≤ f2 →
    node_go H f1 i = node_go H f2 i := by
  intro i
  induction i using Nat.strong_induction_on with
  | _ i ih =>
    intro f1 f2 h1 h2
    match i, f1, f2 with
    | 0, f1, f2 => cases f1 <;> cases f2 <;> rfl
    | 1, f1, f2 => cases f1 <;> cases f2 <;> rfl
    | i + 2, f1 + 1, f2 + 1 =>
      rw [node_go_succ H f1 (i + 2) (by omega), node_go_succ H f2 (i + 2) (by omega)]
      rw [ih ((i + 2) / 2) (by omega) f1 f2 (by omega) (by omega)]

theorem node_rec_two (H i : Nat) (h2 : 2 ≤ i) :
    node_rec H i =
      (if (height H - ((node_rec H (i / 2)).order - 1)) % 4 == 1 then
        { start :=
            if (node_rec H (i / 2)).pos * 2 == i then (node_rec H (i / 2)).start
            else (node_rec H (i / 2)).start + (1 <<< ((node_rec H (i / 2)).order - 1)),
          pos := i, order := (node_rec H (i / 2)).order - 1, container_pos := 1,
          container_root := i }
      else
        { start :=
            if (node_rec H (i / 2)).pos * 2 == i then (node_rec H (i / 2)).start
            else (node_rec H (i / 2)).start + (1 <<< ((node_rec H (i / 2)).order - 1)),
          pos := i, order := (node_rec H (i / 2)).order - 1,
          container_pos :=
            if (node_rec H (i / 2)).pos * 2 == i then (node_rec H (i / 2)).container_pos * 2
            else (node_rec H (i / 2)).container_pos * 2 + 1,
          container_root := (node_rec H (i / 2)).container_root }) := by
  have h0 : node_rec H i = node_go H i i := rfl
  match i, h2 with
  | i + 2, _ =>
    rw [h0, show i + 2 = (i + 1) + 1 from rfl, node_go_succ H (i + 1) (i + 2) (by omega)]
    rw [node_go_irrel H ((i + 2) / 2) (i + 1) ((i + 2) / 2) (by omega) (by omega)]
    rfl

theorem log2_rec (i : Nat) (h : 2 ≤ i) : Nat.log2 i = Nat.log2 (i / 2) + 1 := by
  rw [Nat.log2]
  simp [h]

theorem log2_one_le (i : Nat) (h : 2 ≤ i) : 1 ≤ Nat.log2 i := by
  rw [log2_rec i h]
  omega

theorem log2_le_iff (i H : Nat) (h1 : 1 ≤ i) : Nat.log2 i ≤ H ↔ i < 2 ^ (H + 1) := by
  constructor
  · intro h
    have h2 := Nat.lt_log2_self (n := i)
    calc i < 2 ^ (Nat.log2 i + 1) := h2
    _ ≤ 2 ^ (H + 1) := Nat.pow_le_pow_right (by norm_num) (by omega)
  · intro h
    by_contra hc
    have h3 : 2 ^ (H + 1) ≤ 2 ^ Nat.log2 i := Nat.pow_le_pow_right (by norm_num) (by omega)
    have h4 := Nat.log2_self_le (n := i) (by omega)
    omega

/-- Closed forms of the `init_tree` assignment: the heap index is stored in
`pos`, `order` is the height above the leaves, and the container geometry
follows the index's binary expansion: with `d = log2 i % 4` the node sits at
in-container depth `d`, its slot is `2^d + (i mod 2^d)` and its container root
is the ancestor `d` levels up. -/
theorem node_rec_closed (H : Nat) : ∀ i, 1 ≤ i → Nat.log2 i ≤ H →
    (node_rec H i).pos = i ∧
    (node_rec H i).order = H - Nat.log2 i ∧
    (node_rec H i).container_pos = 2 ^ (Nat.log2 i % 4) + i % 2 ^ (Nat.log2 i % 4) ∧
    (node_rec H i).container_root = i / 2 ^ (Nat.log2 i % 4) := by
  intro i
  induction i using Nat.strong_induction_on with
  | _ i ih =>
    intro h1 hH
    match i, h1 with
    | 1, _ =>
      have hl : Nat.log2 1 = 0 := by rw [Nat.log2]; norm_num
      refine ⟨rfl, ?_, ?_, ?_⟩
      · show (node_go H 1 1).order = H - Nat.log2 1
        rw [hl]
        rfl
      · show (node_go H 1 1).container_pos = 2 ^ (Nat.log2 1 % 4) + 1 % 2 ^ (Nat.log2 1 % 4)
        rw [hl]
        rfl
      · show (node_go H 1 1).container_root = 1 / 2 ^ (Nat.log2 1 % 4)
        rw [hl]
        rfl
    | i + 2, _ =>
      set j := i + 2 with hj
      have h2 : 2 ≤ j := by omega
      have hpl : Nat.log2 j = Nat.log2 (j / 2) + 1 := log2_rec j h2
      have hp1 : 1 ≤ j / 2 := by omega
      have hpH : Nat.log2 (j / 2) ≤ H := by omega
      obtain ⟨hpos, hord, hcpos, hcroot⟩ := ih (j / 2) (by omega) hp1 hpH
      have hordj : (node_rec H (j / 2)).order - 1 = H - Nat.log2 j := by
        rw [hord]; omega
      have hcond : (height H - ((node_rec H (j / 2)).order - 1)) % 4 =
          (Nat.log2 j + 1) % 4 := by
        rw [hordj, height]
        congr 1
        omega
      rw [node_rec_two H j h2]
      by_cases hc : Nat.log2 j % 4 = 0
      · have hbeq : ((height H - ((node_rec H (j / 2)).order - 1)) % 4 == 1) = true := by
          rw [hcond]
          simp only [beq_iff_eq]
          omega
        rw [if_pos hbeq]
        refine ⟨rfl, hordj, ?_, ?_⟩
        · show (1 : Nat) = 2 ^ (Nat.log2 j % 4) + j % 2 ^ (Nat.log2 j % 4)
          rw [hc]
          simp [Nat.mod_one]
        · show (j : Nat) = j / 2 ^ (Nat.log2 j % 4)
          rw [hc]
          simp
      · have hbeq : ((height H - ((node_rec H (j / 2)).order - 1)) % 4 == 1) = false := by
          rw [hcond]
          simp only [beq_eq_false_iff_ne, Ne]
          omega
        rw [if_neg (by rw [hbeq]; exact Bool.false_ne_true)]
        have hd1 : 1 ≤ Nat.log2 j % 4 := by omega
        have hdp : Nat.log2 (j / 2) % 4 = Nat.log2 j % 4 - 1 := by omega
        have hpow : 2 ^ (Nat.log2 j % 4) = 2 * 2 ^ (Nat.log2 j % 4 - 1) := by
          rw [← pow_succ']
          congr 1
          omega
        have hmod : j % 2 ^ (Nat.log2 j % 4) =
            2 * (j / 2 % 2 ^ (Nat.log2 j % 4 - 1)) + j % 2 := by
          rw [hpow, Nat.mod_mul]
          omega
        refine ⟨rfl, hordj, ?_, ?_⟩
        · dsimp only
          rw [hcpos, hdp, hpos]
          by_cases hpar : j % 2 = 0
          · have hbe : ((j / 2) * 2 == j) = true := by
              simp only [beq_iff_eq]
              omega
            rw [if_pos hbe]
            omega
          · have hbe : ((j / 2) * 2 == j) = false := by
              simp only [beq_eq_false_iff_ne, Ne]
              omega
            rw [if_neg (by rw [hbe]; exact Bool.false_ne_true)]
            omega
        · dsimp only
          rw [hcroot, hdp, hpow, Nat.div_div_eq_div_mul]

/-- Convenient projections of `node_rec_closed`. -/
theorem pos_eq (H i : Nat) (h1 : 1 ≤ i) (hH : Nat.log2 i ≤ H) : (node_rec H i).pos = i :=
  (node_rec_closed H i h1 hH).1

theorem norder_eq (H i : Nat) (h1 : 1 ≤ i) (hH : Nat.log2 i ≤ H) :
    norder H i = H - Nat.log2 i :=
  (node_rec_closed H i h1 hH).2.1

theorem cpos_eq (H i : Nat) (h1 : 1 ≤ i) (hH : Nat.log2 i ≤ H) :
    cpos H i = 2 ^ (Nat.log2 i % 4) + i % 2 ^ (Nat.log2 i % 4) :=
  (node_rec_closed H i h1 hH).2.2.1

theorem croot_eq (H i : Nat) (h1 : 1 ≤ i) (hH : Nat.log2 i ≤ H) :
    croot H i = i / 2 ^ (Nat.log2 i % 4) :=
  (node_rec_closed H i h1 hH).2.2.2

theorem nstart_two (H i : Nat) (h2 : 2 ≤ i) :
    nstart H i =
      (if (node_rec H (i / 2)).pos * 2 == i then (node_rec H (i / 2)).start
       else (node_rec H (i / 2)).start + (1 <<< ((node_rec H (i / 2)).order - 1))) := by
  rw [nstart, node_rec_two H i h2]
  split <;> rfl

theorem node_count_eq (H : Nat) : node_count H = 2 ^ (H + 1) - 1 := by
  have h : (1 <<< H : Nat) = 2 ^ H := by rw [Nat.shiftLeft_eq]; ring
  have h2 : (2 : Nat) ^ (H + 1) = 2 ^ H * 2 := pow_succ 2 H
  rw [node_count, h]
  omega

theorem log2_le_of_le_node_count (H i : Nat) (h1 : 1 ≤ i) (hle : i ≤ node_count H) :
    Nat.log2 i ≤ H := by
  rw [log2_le_iff i H h1]
  rw [node_count_eq] at hle
  have : (0 : Nat) < 2 ^ (H + 1) := Nat.pos_pow_of_pos _ (by norm_num)
  omega

/-! ## Claim C8: the `init_tree` assignment -/

/-- Claim C8: for every node `i` from 2 to `2N - 1`, tree construction assigns
`order = parent.order - 1`; it gives the node a fresh container with
`container_pos = 1` exactly when `(H + 1 - order) % 4 = 1`, and otherwise the
parent's container with `container_pos = 2 * parent.container_pos` for a left
child and `2 * parent.container_pos + 1` for a right child; `start =
parent.start` for a left child and `parent.start + 2^order` pages for a right
child; and `container_pos` always lies in `[1, 15]`. -/
theorem init_tree_assignments (H i : Nat) (h2 : 2 ≤ i) (hle : i ≤ node_count H) :
    norder H i = norder H (i / 2) - 1 ∧
      ((H + 1 - norder H i) % 4 = 1 →
        cpos H i = 1 ∧ croot H i = i ∧ croot H i ≠ croot H (i / 2)) ∧
      ((H + 1 - norder H i) % 4 ≠ 1 →
        croot H i = croot H (i / 2) ∧
          cpos H i = (if i % 2 = 0 then cpos H (i / 2) * 2 else cpos H (i / 2) * 2 + 1)) ∧
      nstart H i =
        (if i % 2 = 0 then nstart H (i / 2) else nstart H (i / 2) + 2 ^ norder H i) ∧
      1 ≤ cpos H i ∧ cpos H i ≤ 15 := by
  have h1 : 1 ≤ i := by omega
  have hH : Nat.log2 i ≤ H := log2_le_of_le_node_count H i h1 hle
  have hLrec : Nat.log2 i = Nat.log2 (i / 2) + 1 := log2_rec i h2
  have hp1 : 1 ≤ i / 2 := by omega
  have hpH : Nat.log2 (i / 2) ≤ H := by omega
  have hL1 : 1 ≤ Nat.log2 i := by omega
  have hordi := norder_eq H i h1 hH
  have hordp := norder_eq H (i / 2) hp1 hpH
  have hcposi := cpos_eq H i h1 hH
  have hcposp := cpos_eq H (i / 2) hp1 hpH
  have hcrooti := croot_eq H i h1 hH
  have hcrootp := croot_eq H (i / 2) hp1 hpH
  have hcondeq : (H + 1 - norder H i) % 4 = (Nat.log2 i + 1) % 4 := by
    rw [hordi]
    congr 1
    omega
  refine ⟨?_, ?_, ?_, ?_, ?_, ?_⟩
  · rw [hordi, hordp]
    omega
  · intro hcond
    rw [hcondeq] at hcond
    have hc0 : Nat.log2 i % 4 = 0 := by omega
    have hdp : Nat.log2 (i / 2) % 4 = 3 := by omega
    refine ⟨?_, ?_, ?_⟩
    · rw [hcposi, hc0]
      simp [Nat.mod_one]
    · rw [hcrooti, hc0]
      simp
    · rw [hcrooti, hcrootp, hc0]
      have hd : i / 2 / 2 ^ (Nat.log2 (i / 2) % 4) ≤ i / 2 := Nat.div_le_self _ _
      simp only [pow_zero, Nat.div_one]
      omega
  · intro hcond
    rw [hcondeq] at hcond
    have hd1 : 1 ≤ Nat.log2 i % 4 := by omega
    have hdp : Nat.log2 (i / 2) % 4 = Nat.log2 i % 4 - 1 := by omega
    have hpow : 2 ^ (Nat.log2 i % 4) = 2 * 2 ^ (Nat.log2 i % 4 - 1) := by
      rw [← pow_succ']
      congr 1
      omega
    have hmod : i % 2 ^ (Nat.log2 i % 4) =
        2 * (i / 2 % 2 ^ (Nat.log2 i % 4 - 1)) + i % 2 := by
      rw [hpow, Nat.mod_mul]
      omega
    constructor
    · rw [hcrooti, hcrootp, hdp, hpow, Nat.div_div_eq_div_mul]
    · rw [hcposi, hcposp, hdp]
      by_cases hpar : i % 2 = 0
      · rw [if_pos hpar]
        omega
      · rw [if_neg hpar]
        omega
  · rw [nstart_two H i h2]
    have hpose := pos_eq H (i / 2) hp1 hpH
    have hords : (node_rec H (i / 2)).order - 1 = norder H i := by
      rw [show (node_rec H (i / 2)).order = norder H (i / 2) from rfl, hordp, hordi]
      omega
    have hshift : (1 <<< ((node_rec H (i / 2)).order - 1) : Nat) = 2 ^ norder H i := by
      rw [hords, Nat.shiftLeft_eq]
      ring
    by_cases hpar : i % 2 = 0
    · have hbe : ((node_rec H (i / 2)).pos * 2 == i) = true := by
        rw [hpose]
        simp only [beq_iff_eq]
        omega
      rw [if_pos hbe, if_pos hpar]
      rfl
    · have hbe : ((node_rec H (i / 2)).pos * 2 == i) = false := by
        rw [hpose]
        simp only [beq_eq_false_iff_ne, Ne]
        omega
      rw [if_neg (by rw [hbe]; exact Bool.false_ne_true), if_neg hpar, hshift]
      rfl
  · rw [hcposi]
    have : (0 : Nat) < 2 ^ (Nat.log2 i % 4) := Nat.pos_pow_of_pos _ (by norm_num)
    omega
  · rw [hcposi]
    have hm : i % 2 ^ (Nat.log2 i % 4) < 2 ^ (Nat.log2 i % 4) :=
      Nat.mod_lt _ (Nat.pos_pow_of_pos _ (by norm_num))
    have hd3 : Nat.log2 i % 4 ≤ 3 := by omega
    have hpb : (2 : Nat) ^ (Nat.log2 i % 4) ≤ 2 ^ 3 :=
      Nat.pow_le_pow_right (by norm_num) hd3
    norm_num at hpb
    omega

/-- Witness for C8 at `H = 4`, `i = 7`. -/
theorem init_tree_assignments_witness :
    norder 4 7 = norder 4 3 - 1 ∧
      ((4 + 1 - norder 4 7) % 4 = 1 → cpos 4 7 = 1 ∧ croot 4 7 = 7 ∧ croot 4 7 ≠ croot 4 3) ∧
      ((4 + 1 - norder 4 7) % 4 ≠ 1 →
        croot 4 7 = croot 4 3 ∧
          cpos 4 7 = (if 7 % 2 = 0 then cpos 4 3 * 2 else cpos 4 3 * 2 + 1)) ∧
      nstart 4 7 = (if 7 % 2 = 0 then nstart 4 3 else nstart 4 3 + 2 ^ norder 4 7) ∧
      1 ≤ cpos 4 7 ∧ cpos 4 7 ≤ 15 :=
  init_tree_assignments 4 7 (by norm_num) (by decide)

/-! ## Bit views of the idempotence-style predicates -/

theorem is_left_coalescing_tb (w q : Nat) :
    is_left_coalescing w q = w.testBit (leaf_offset q + 3) := by
  rw [is_left_coalescing, left_coalesce, show (COALESCE_LEFT : Nat) = 2 ^ 3 from rfl]
  exact or_single_self_iff w 3 (leaf_offset q)

theorem is_right_coalescing_tb (w q : Nat) :
    is_right_coalescing w q = w.testBit (leaf_offset q + 2) := by
  rw [is_right_coalescing, rigth_coalesce, show (COALESCE_RIGHT : Nat) = 2 ^ 2 from rfl]
  exact or_single_self_iff w 2 (leaf_offset q)

theorem is_occupied_rigth_tb (w q : Nat) :
    is_occupied_rigth w q = w.testBit (leaf_offset q) := by
  rw [is_occupied_rigth, occupy_rigth, show (RIGHT_OCCUPIED : Nat) = 2 ^ 0 from rfl]
  rw [or_single_self_iff w 0 (leaf_offset q), Nat.add_zero]

theorem is_occupied_left_tb (w q : Nat) :
    is_occupied_left w q = w.testBit (leaf_offset q + 1) := by
  rw [is_occupied_left, occupy_left, show (LEFT_OCCUPIED : Nat) = 2 ^ 1 from rfl]
  exact or_single_self_iff w 1 (leaf_offset q)

theorem tb_clean_left_coalesce (w q j : Nat) :
    (clean_left_coalesce w q).testBit j =
      (w.testBit j && !(decide (j = leaf_offset q + 3))) := by
  rw [clean_left_coalesce, show (COALESCE_LEFT : Nat) = 2 ^ 3 from rfl, tb_and_not, tb_single]

theorem tb_clean_rigth_coalesce (w q j : Nat) :
    (clean_rigth_coalesce w q).testBit j =
      (w.testBit j && !(decide (j = leaf_offset q + 2))) := by
  rw [clean_rigth_coalesce, show (COALESCE_RIGHT : Nat) = 2 ^ 2 from rfl, tb_and_not, tb_single]

theorem tb_clean_left (w q j : Nat) :
    (clean_left w q).testBit j = (w.testBit j && !(decide (j = leaf_offset q + 1))) := by
  rw [clean_left, show (0x2 : Nat) = 2 ^ 1 from rfl, tb_and_not, tb_single]

theorem tb_clean_rigth (w q j : Nat) :
    (clean_rigth w q).testBit j = (w.testBit j && !(decide (j = leaf_offset q))) := by
  rw [clean_rigth, show (0x1 : Nat) = 2 ^ 0 from rfl, tb_and_not, tb_single, Nat.add_zero]

theorem setW_self (st : St) (k w : Nat) : setW st k w k = w := if_pos rfl

theorem setW_collapse (st : St) (k a b : Nat) : setW (setW st k a) k b = setW st k b := by
  funext x
  by_cases hx : x = k <;> simp [setW, hx]

/-! ## Claim C6: the early-exit arms of `unmark` -/

theorem unmark_cas_done_left (H fuel i ub c : Nat) (sched : List (Nat → Nat)) (st : St)
    (h2 : 2 ≤ i) (hside : (i / 2) * 2 = i)
    (hnc : (st (croot H (i / 2))).testBit (leaf_offset (cpos H (i / 2)) + 3) = false) :
    unmark_cas H (fuel + 1) i ub sched st c = some (st, c, sched) := by
  have hco : is_left_coalescing (st (croot H (i / 2))) (cpos H (i / 2)) = false := by
    rw [is_left_coalescing_tb, hnc]
  simp only [unmark_cas]
  rw [if_neg (by omega : ¬ i < 2), if_pos (beq_iff_eq.mpr hside), hco, Bool.not_false,
    if_pos (rfl : true = true)]

theorem unmark_cas_done_right (H fuel i ub c : Nat) (sched : List (Nat → Nat)) (st : St)
    (h2 : 2 ≤ i) (hside : (i / 2) * 2 + 1 = i)
    (hnc : (st (croot H (i / 2))).testBit (leaf_offset (cpos H (i / 2)) + 2) = false) :
    unmark_cas H (fuel + 1) i ub sched st c = some (st, c, sched) := by
  have hco : is_right_coalescing (st (croot H (i / 2))) (cpos H (i / 2)) = false := by
    rw [is_right_coalescing_tb, hnc]
  have hsne : ((i / 2) * 2 == i) = false := by
    simp only [beq_eq_false_iff_ne, Ne]
    omega
  simp only [unmark_cas]
  rw [if_neg (by omega : ¬ i < 2), if_neg (by rw [hsne]; exact Bool.false_ne_true), hco,
    Bool.not_false, if_pos (rfl : true = true)]

theorem unmark_cas_left (H i ub : Nat) (h2 : 2 ≤ i) (hside : (i / 2) * 2 = i)
    (hub : i ≠ ub) :
    ∀ (sched : List (Nat → Nat)), ∀ (st : St) (fuel c : Nat),
      sched.length + 2 ≤ fuel →
      (∀ g ∈ sched, field_preserving g (cpos H (i / 2))) →
      (st (croot H (i / 2))).testBit (leaf_offset (cpos H (i / 2)) + 3) = true →
      (st (croot H (i / 2))).testBit (leaf_offset (cpos H (i / 2))) = true →
      ∃ stf rest,
        unmark_cas H fuel i ub sched st c = some (stf, c + 1, rest) ∧
          (stf (croot H (i / 2))).testBit (leaf_offset (cpos H (i / 2)) + 3) = false ∧
          (stf (croot H (i / 2))).testBit (leaf_offset (cpos H (i / 2)) + 1) = false ∧
          (stf (croot H (i / 2))).testBit (leaf_offset (cpos H (i / 2))) = true := by
  intro sched
  induction sched with
  | nil =>
    intro st fuel c hfuel hpres hco hocc
    simp only [List.length_nil] at hfuel
    obtain ⟨f, rfl⟩ : ∃ f, fuel = f + 1 := ⟨fuel - 1, by omega⟩
    have hf1 : 1 ≤ f := by omega
    have hcol : is_left_coalescing (st (croot H (i / 2))) (cpos H (i / 2)) = true := by
      rw [is_left_coalescing_tb, hco]
    have hwocc : is_occupied_rigth
        (clean_left (clean_left_coalesce (st (croot H (i / 2))) (cpos H (i / 2)))
          (cpos H (i / 2))) (cpos H (i / 2)) = true := by
      rw [is_occupied_rigth_tb, tb_clean_left, tb_clean_left_coalesce, hocc]
      simp only [Bool.true_and]
      rw [decide_eq_false
          (by omega : ¬ leaf_offset (cpos H (i / 2)) = leaf_offset (cpos H (i / 2)) + 3),
        decide_eq_false
          (by omega : ¬ leaf_offset (cpos H (i / 2)) = leaf_offset (cpos H (i / 2)) + 1)]
      rfl
    have hbits : ∀ j, ((setW st (croot H (i / 2))
        (clean_left (clean_left_coalesce (st (croot H (i / 2))) (cpos H (i / 2)))
          (cpos H (i / 2)))) (croot H (i / 2))).testBit j =
        ((st (croot H (i / 2))).testBit j &&
          !(decide (j = leaf_offset (cpos H (i / 2)) + 3)) &&
          !(decide (j = leaf_offset (cpos H (i / 2)) + 1))) := by
      intro j
      rw [setW_self, tb_clean_left, tb_clean_left_coalesce]
    have hnc2 : ((setW st (croot H (i / 2))
        (clean_left (clean_left_coalesce (st (croot H (i / 2))) (cpos H (i / 2)))
          (cpos H (i / 2)))) (croot H (i / 2))).testBit
        (leaf_offset (cpos H (i / 2)) + 3) = false := by
      rw [hbits]
      simp
    refine ⟨setW st (croot H (i / 2))
      (clean_left (clean_left_coalesce (st (croot H (i / 2))) (cpos H (i / 2)))
        (cpos H (i / 2))), [], ?_, ?_, ?_, ?_⟩
    · simp only [unmark_cas]
      rw [if_neg (by omega : ¬ i < 2), if_pos (beq_iff_eq.mpr hside), hcol]
      simp only [Bool.not_true, Bool.false_eq_true, if_false, List.headD_nil, List.tail_nil,
        hwocc, if_true]
      rw [if_pos (by rw [setW_self]; simp : (setW st (croot H (i / 2))
        (id (st (croot H (i / 2)))) (croot H (i / 2)) == st (croot H (i / 2))) = true)]
      rw [setW_collapse]
      obtain ⟨f2, rfl⟩ : ∃ f2, f = f2 + 1 := ⟨f - 1, by omega⟩
      rw [unmark_cas_done_left H f2 i ub (c + 1) [] _ h2 hside hnc2]
    · exact hnc2
    · rw [hbits]
      simp
    · rw [hbits, hocc]
      simp only [Bool.true_and]
      rw [decide_eq_false
          (by omega : ¬ leaf_offset (cpos H (i / 2)) = leaf_offset (cpos H (i / 2)) + 3),
        decide_eq_false
          (by omega : ¬ leaf_offset (cpos H (i / 2)) = leaf_offset (cpos H (i / 2)) + 1)]
      rfl
  | cons g gs ih =>
    intro st fuel c hfuel hpres hco hocc
    simp only [List.length_cons] at hfuel
    obtain ⟨f, rfl⟩ : ∃ f, fuel = f + 1 := ⟨fuel - 1, by omega⟩
    have hf : gs.length + 2 ≤ f := by omega
    have hcol : is_left_coalescing (st (croot H (i / 2))) (cpos H (i / 2)) = true := by
      rw [is_left_coalescing_tb, hco]
    have hwocc : is_occupied_rigth
        (clean_left (clean_left_coalesce (st (croot H (i / 2))) (cpos H (i / 2)))
          (cpos H (i / 2))) (cpos H (i / 2)) = true := by
      rw [is_occupied_rigth_tb, tb_clean_left, tb_clean_left_coalesce, hocc]
      simp only [Bool.true_and]
      rw [decide_eq_false
          (by omega : ¬ leaf_offset (cpos H (i / 2)) = leaf_offset (cpos H (i / 2)) + 3),
        decide_eq_false
          (by omega : ¬ leaf_offset (cpos H (i / 2)) = leaf_offset (cpos H (i / 2)) + 1)]
      rfl
    have hgpres : field_preserving g (cpos H (i / 2)) := hpres g (by simp)
    by_cases hcas : g (st (croot H (i / 2))) = st (croot H (i / 2))
    · -- the CAS succeeds: one commit, then the reload returns at the coalescing test
      have hbits : ∀ j, ((setW st (croot H (i / 2))
          (clean_left (clean_left_coalesce (st (croot H (i / 2))) (cpos H (i / 2)))
            (cpos H (i / 2)))) (croot H (i / 2))).testBit j =
          ((st (croot H (i / 2))).testBit j &&
            !(decide (j = leaf_offset (cpos H (i / 2)) + 3)) &&
            !(decide (j = leaf_offset (cpos H (i / 2)) + 1))) := by
        intro j
        rw [setW_self, tb_clean_left, tb_clean_left_coalesce]
      have hnc2 : ((setW st (croot H (i / 2))
          (clean_left (clean_left_coalesce (st (croot H (i / 2))) (cpos H (i / 2)))
            (cpos H (i / 2)))) (croot H (i / 2))).testBit
          (leaf_offset (cpos H (i / 2)) + 3) = false := by
        rw [hbits]
        simp
      refine ⟨setW st (croot H (i / 2))
        (clean_left (clean_left_coalesce (st (croot H (i / 2))) (cpos H (i / 2)))
          (cpos H (i / 2))), gs, ?_, ?_, ?_, ?_⟩
      · simp only [unmark_cas]
        rw [if_neg (by omega : ¬ i < 2), if_pos (beq_iff_eq.mpr hside), hcol]
        simp only [Bool.not_true, Bool.false_eq_true, if_false, List.headD_cons,
          List.tail_cons, hwocc, if_true]
        rw [if_pos (by rw [setW_self, hcas]; simp : (setW st (croot H (i / 2))
          (g (st (croot H (i / 2)))) (croot H (i / 2)) == st (croot H (i / 2))) = true)]
        rw [setW_collapse]
        obtain ⟨f2, rfl⟩ : ∃ f2, f = f2 + 1 := ⟨f - 1, by omega⟩
        rw [unmark_cas_done_left H f2 i ub (c + 1) gs _ h2 hside hnc2]
      · exact hnc2
      · rw [hbits]
        simp
      · rw [hbits, hocc]
        simp only [Bool.true_and]
        rw [decide_eq_false
            (by omega : ¬ leaf_offset (cpos H (i / 2)) = leaf_offset (cpos H (i / 2)) + 3),
          decide_eq_false
            (by omega : ¬ leaf_offset (cpos H (i / 2)) = leaf_offset (cpos H (i / 2)) + 1)]
        rfl
    · -- the CAS fails: the source breaks the loop and re-enters via the trailing
      -- recursion, i.e. it retries with the interfered state
      have hstep : unmark_cas H (f + 1) i ub (g :: gs) st c =
          unmark_cas H f i ub gs
            (setW st (croot H (i / 2)) (g (st (croot H (i / 2))))) c := by
        simp only [unmark_cas]
        rw [if_neg (by omega : ¬ i < 2), if_pos (beq_iff_eq.mpr hside), hcol]
        simp only [Bool.not_true, Bool.false_eq_true, if_false, List.headD_cons,
          List.tail_cons, hwocc, if_true]
        have hdiff : (setW st (croot H (i / 2)) (g (st (croot H (i / 2))))
            (croot H (i / 2)) == st (croot H (i / 2))) = false := by
          rw [setW_self]
          simp only [beq_eq_false_iff_ne, Ne]
          exact hcas
        rw [if_neg (by rw [hdiff]; exact Bool.false_ne_true)]
        rw [if_pos (bne_iff_ne.mpr hub)]
      rw [hstep]
      apply ih (setW st (croot H (i / 2)) (g (st (croot H (i / 2))))) f c hf
        (fun g2 hg2 => hpres g2 (by simp [hg2]))
      · show ((setW st (croot H (i / 2)) (g (st (croot H (i / 2)))))
          (croot H (i / 2))).testBit (leaf_offset (cpos H (i / 2)) + 3) = true
        rw [setW_self, hgpres (st (croot H (i / 2))) 3 (by omega), hco]
      · show ((setW st (croot H (i / 2)) (g (st (croot H (i / 2)))))
          (croot H (i / 2))).testBit (leaf_offset (cpos H (i / 2))) = true
        rw [setW_self]
        have hx := hgpres (st (croot H (i / 2))) 0 (by omega)
        rw [Nat.add_zero] at hx
        rw [hx, hocc]

theorem unmark_cas_right (H i ub : Nat) (h2 : 2 ≤ i) (hside : (i / 2) * 2 + 1 = i)
    (hub : i ≠ ub) :
    ∀ (sched : List (Nat → Nat)), ∀ (st : St) (fuel c : Nat),
      sched.length + 2 ≤ fuel →
      (∀ g ∈ sched, field_preserving g (cpos H (i / 2))) →
      (st (croot H (i / 2))).testBit (leaf_offset (cpos H (i / 2)) + 2) = true →
      (st (croot H (i / 2))).testBit (leaf_offset (cpos H (i / 2)) + 1) = true →
      ∃ stf rest,
        unmark_cas H fuel i ub sched st c = some (stf, c + 1, rest) ∧
          (stf (croot H (i / 2))).testBit (leaf_offset (cpos H (i / 2)) + 2) = false ∧
          (stf (croot H (i / 2))).testBit (leaf_offset (cpos H (i / 2))) = false ∧
          (stf (croot H (i / 2))).testBit (leaf_offset (cpos H (i / 2)) + 1) = true := by
  have hsne : ((i / 2) * 2 == i) = false := by
    simp only [beq_eq_false_iff_ne, Ne]
    omega
  intro sched
  induction sched with
  | nil =>
    intro st fuel c hfuel hpres hco hocc
    simp only [List.length_nil] at hfuel
    obtain ⟨f, rfl⟩ : ∃ f, fuel = f + 1 := ⟨fuel - 1, by omega⟩
    have hf1 : 1 ≤ f := by omega
    have hcol : is_right_coalescing (st (croot H (i / 2))) (cpos H (i / 2)) = true := by
      rw [is_right_coalescing_tb, hco]
    have hwocc : is_occupied_left
        (clean_rigth (clean_rigth_coalesce (st (croot H (i / 2))) (cpos H (i / 2)))
          (cpos H (i / 2))) (cpos H (i / 2)) = true := by
      rw [is_occupied_left_tb, tb_clean_rigth, tb_clean_rigth_coalesce, hocc]
      simp only [Bool.true_and]
      rw [decide_eq_false
          (by omega : ¬ leaf_offset (cpos H (i / 2)) + 1 = leaf_offset (cpos H (i / 2)) + 2),
        decide_eq_false
          (by omega : ¬ leaf_offset (cpos H (i / 2)) + 1 = leaf_offset (cpos H (i / 2)))]
      rfl
    have hbits : ∀ j, ((setW st (croot H (i / 2))
        (clean_rigth (clean_rigth_coalesce (st (croot H (i / 2))) (cpos H (i / 2)))
          (cpos H (i / 2)))) (croot H (i / 2))).testBit j =
        ((st (croot H (i / 2))).testBit j &&
          !(decide (j = leaf_offset (cpos H (i / 2)) + 2)) &&
          !(decide (j = leaf_offset (cpos H (i / 2))))) := by
      intro j
      rw [setW_self, tb_clean_rigth, tb_clean_rigth_coalesce]
    have hnc2 : ((setW st (croot H (i / 2))
        (clean_rigth (clean_rigth_coalesce (st (croot H (i / 2))) (cpos H (i / 2)))
          (cpos H (i / 2)))) (croot H (i / 2))).testBit
        (leaf_offset (cpos H (i / 2)) + 2) = false := by
      rw [hbits]
      simp
    refine ⟨setW st (croot H (i / 2))
      (clean_rigth (clean_rigth_coalesce (st (croot H (i / 2))) (cpos H (i / 2)))
        (cpos H (i / 2))), [], ?_, ?_, ?_, ?_⟩
    · simp only [unmark_cas]
      rw [if_neg (by omega : ¬ i < 2),
        if_neg (by rw [hsne]; exact Bool.false_ne_true), hcol]
      simp only [Bool.not_true, Bool.false_eq_true, if_false, List.headD_nil, List.tail_nil,
        hwocc, if_true]
      rw [if_pos (by rw [setW_self]; simp : (setW st (croot H (i / 2))
        (id (st (croot H (i / 2)))) (croot H (i / 2)) == st (croot H (i / 2))) = true)]
      rw [if_pos (bne_iff_ne.mpr hub)]
      rw [setW_collapse]
      obtain ⟨f2, rfl⟩ : ∃ f2, f = f2 + 1 := ⟨f - 1, by omega⟩
      rw [unmark_cas_done_right H f2 i ub (c + 1) [] _ h2 hside hnc2]
    · exact hnc2
    · rw [hbits]
      simp
    · rw [hbits, hocc]
      simp only [Bool.true_and]
      rw [decide_eq_false
          (by omega : ¬ leaf_offset (cpos H (i / 2)) + 1 = leaf_offset (cpos H (i / 2)) + 2),
        decide_eq_false
          (by omega : ¬ leaf_offset (cpos H (i / 2)) + 1 = leaf_offset (cpos H (i / 2)))]
      rfl
  | cons g gs ih =>
    intro st fuel c hfuel hpres hco hocc
    simp only [List.length_cons] at hfuel
    obtain ⟨f, rfl⟩ : ∃ f, fuel = f + 1 := ⟨fuel - 1, by omega⟩
    have hf : gs.length + 2 ≤ f := by omega
    have hcol : is_right_coalescing (st (croot H (i / 2))) (cpos H (i / 2)) = true := by
      rw [is_right_coalescing_tb, hco]
    have hwocc : is_occupied_left
        (clean_rigth (clean_rigth_coalesce (st (croot H (i / 2))) (cpos H (i / 2)))
          (cpos H (i / 2))) (cpos H (i / 2)) = true := by
      rw [is_occupied_left_tb, tb_clean_rigth, tb_clean_rigth_coalesce, hocc]
      simp only [Bool.true_and]
      rw [decide_eq_false
          (by omega : ¬ leaf_offset (cpos H (i / 2)) + 1 = leaf_offset (cpos H (i / 2)) + 2),
        decide_eq_false
          (by omega : ¬ leaf_offset (cpos H (i / 2)) + 1 = leaf_offset (cpos H (i / 2)))]
      rfl
    have hgpres : field_preserving g (cpos H (i / 2)) := hpres g (by simp)
    by_cases hcas : g (st (croot H (i / 2))) = st (croot H (i / 2))
    · -- the CAS succeeds: one commit, then the trailing recursion returns at the
      -- coalescing test
      have hbits : ∀ j, ((setW st (croot H (i / 2))
          (clean_rigth (clean_rigth_coalesce (st (croot H (i / 2))) (cpos H (i / 2)))
            (cpos H (i / 2)))) (croot H (i / 2))).testBit j =
          ((st (croot H (i / 2))).testBit j &&
            !(decide (j = leaf_offset (cpos H (i / 2)) + 2)) &&
            !(decide (j = leaf_offset (cpos H (i / 2))))) := by
        intro j
        rw [setW_self, tb_clean_rigth, tb_clean_rigth_coalesce]
      have hnc2 : ((setW st (croot H (i / 2))
          (clean_rigth (clean_rigth_coalesce (st (croot H (i / 2))) (cpos H (i / 2)))
            (cpos H (i / 2)))) (croot H (i / 2))).testBit
          (leaf_offset (cpos H (i / 2)) + 2) = false := by
        rw [hbits]
        simp
      refine ⟨setW st (croot H (i / 2))
        (clean_rigth (clean_rigth_coalesce (st (croot H (i / 2))) (cpos H (i / 2)))
          (cpos H (i / 2))), gs, ?_, ?_, ?_, ?_⟩
      · simp only [unmark_cas]
        rw [if_neg (by omega : ¬ i < 2),
          if_neg (by rw [hsne]; exact Bool.false_ne_true), hcol]
        simp only [Bool.not_true, Bool.false_eq_true, if_false, List.headD_cons,
          List.tail_cons, hwocc, if_true]
        rw [if_pos (by rw [setW_self, hcas]; simp : (setW st (croot H (i / 2))
          (g (st (croot H (i / 2)))) (croot H (i / 2)) == st (croot H (i / 2))) = true)]
        rw [if_pos (bne_iff_ne.mpr hub)]
        rw [setW_collapse]
        obtain ⟨f2, rfl⟩ : ∃ f2, f = f2 + 1 := ⟨f - 1, by omega⟩
        rw [unmark_cas_done_right H f2 i ub (c + 1) gs _ h2 hside hnc2]
      · exact hnc2
      · rw [hbits]
        simp
      · rw [hbits, hocc]
        simp only [Bool.true_and]
        rw [decide_eq_false
            (by omega : ¬ leaf_offset (cpos H (i / 2)) + 1 = leaf_offset (cpos H (i / 2)) + 2),
          decide_eq_false
            (by omega : ¬ leaf_offset (cpos H (i / 2)) + 1 = leaf_offset (cpos H (i / 2)))]
        rfl
    · -- the CAS fails: the source retries the loop on the interfered state
      have hstep : unmark_cas H (f + 1) i ub (g :: gs) st c =
          unmark_cas H f i ub gs
            (setW st (croot H (i / 2)) (g (st (croot H (i / 2))))) c := by
        simp only [unmark_cas]
        rw [if_neg (by omega : ¬ i < 2),
          if_neg (by rw [hsne]; exact Bool.false_ne_true), hcol]
        simp only [Bool.not_true, Bool.false_eq_true, if_false, List.headD_cons,
          List.tail_cons, hwocc, if_true]
        have hdiff : (setW st (croot H (i / 2)) (g (st (croot H (i / 2))))
            (croot H (i / 2)) == st (croot H (i / 2))) = false := by
          rw [setW_self]
          simp only [beq_eq_false_iff_ne, Ne]
          exact hcas
        rw [if_neg (by rw [hdiff]; exact Bool.false_ne_true)]
      rw [hstep]
      apply ih (setW st (croot H (i / 2)) (g (st (croot H (i / 2))))) f c hf
        (fun g2 hg2 => hpres g2 (by simp [hg2]))
      · show ((setW st (croot H (i / 2)) (g (st (croot H (i / 2)))))
          (croot H (i / 2))).testBit (leaf_offset (cpos H (i / 2)) + 2) = true
        rw [setW_self, hgpres (st (croot H (i / 2))) 2 (by omega), hco]
      · show ((setW st (croot H (i / 2)) (g (st (croot H (i / 2)))))
          (croot H (i / 2))).testBit (leaf_offset (cpos H (i / 2)) + 1) = true
        rw [setW_self, hgpres (st (croot H (i / 2))) 1 (by omega), hocc]

/-- **C6.** In `unmark(node, upper_bound)`, symmetrically for the left-child and the
right-child case: when, after clearing that side's coalesce and occupy bits, the
opposite side is still occupied, the cleared state is committed by exactly one
successful CAS (the commit counter rises from `c` to `c + 1`) and this thread's upward
unmark terminates with the cleared word — a failed CAS retries the loop, a successful
CAS does not retry.  The run is modelled by `unmark_cas`, which is the source's loop
with an arbitrary schedule of interfering writers; each interfering writer may change
the container word freely outside this leaf's 5-bit field (`field_preserving`), making
any number of leading CAS failures possible. -/
theorem unmark_early_exit_single_cas (H i ub : Nat) (h2 : 2 ≤ i) (hub : i ≠ ub)
    (sched : List (Nat → Nat)) (st : St) (fuel c : Nat)
    (hfuel : sched.length + 2 ≤ fuel)
    (hpres : ∀ g ∈ sched, field_preserving g (cpos H (i / 2))) :
    ((i / 2) * 2 = i →
      (st (croot H (i / 2))).testBit (leaf_offset (cpos H (i / 2)) + 3) = true →
      (st (croot H (i / 2))).testBit (leaf_offset (cpos H (i / 2))) = true →
      ∃ stf rest,
        unmark_cas H fuel i ub sched st c = some (stf, c + 1, rest) ∧
          (stf (croot H (i / 2))).testBit (leaf_offset (cpos H (i / 2)) + 3) = false ∧
          (stf (croot H (i / 2))).testBit (leaf_offset (cpos H (i / 2)) + 1) = false ∧
          (stf (croot H (i / 2))).testBit (leaf_offset (cpos H (i / 2))) = true) ∧
    ((i / 2) * 2 + 1 = i →
      (st (croot H (i / 2))).testBit (leaf_offset (cpos H (i / 2)) + 2) = true →
      (st (croot H (i / 2))).testBit (leaf_offset (cpos H (i / 2)) + 1) = true →
      ∃ stf rest,
        unmark_cas H fuel i ub sched st c = some (stf, c + 1, rest) ∧
          (stf (croot H (i / 2))).testBit (leaf_offset (cpos H (i / 2)) + 2) = false ∧
          (stf (croot H (i / 2))).testBit (leaf_offset (cpos H (i / 2))) = false ∧
          (stf (croot H (i / 2))).testBit (leaf_offset (cpos H (i / 2)) + 1) = true) :=
  ⟨fun hside hco hocc =>
      unmark_cas_left H i ub h2 hside hub sched st fuel c hfuel hpres hco hocc,
    fun hside hco hocc =>
      unmark_cas_right H i ub h2 hside hub sched st fuel c hfuel hpres hco hocc⟩

/-- Closed instantiation of the C6 theorem: `H = 4`, left child `16` on word
`2^10 + 2^7` (coalesce-left and occupy-right set) and right child `17` on word
`2^9 + 2^8` (coalesce-right and occupy-left set), empty interference schedule. -/
theorem unmark_early_exit_single_cas_witness :
    (∃ stf rest,
        unmark_cas 4 3 16 1 [] (fun _ => 1152) 0 = some (stf, 0 + 1, rest) ∧
          (stf (croot 4 (16 / 2))).testBit (leaf_offset (cpos 4 (16 / 2)) + 3) = false ∧
          (stf (croot 4 (16 / 2))).testBit (leaf_offset (cpos 4 (16 / 2)) + 1) = false ∧
          (stf (croot 4 (16 / 2))).testBit (leaf_offset (cpos 4 (16 / 2))) = true) ∧
    (∃ stf rest,
        unmark_cas 4 3 17 1 [] (fun _ => 768) 0 = some (stf, 0 + 1, rest) ∧
          (stf (croot 4 (17 / 2))).testBit (leaf_offset (cpos 4 (17 / 2)) + 2) = false ∧
          (stf (croot 4 (17 / 2))).testBit (leaf_offset (cpos 4 (17 / 2))) = false ∧
          (stf (croot 4 (17 / 2))).testBit (leaf_offset (cpos 4 (17 / 2)) + 1) = true) :=
  ⟨(unmark_early_exit_single_cas 4 16 1 (by decide) (by decide) [] (fun _ => 1152) 3 0
      (by decide) (by simp)).1 (by decide) (by decide) (by decide),
    (unmark_early_exit_single_cas 4 17 1 (by decide) (by decide) [] (fun _ => 768) 3 0
      (by decide) (by simp)).2 (by decide) (by decide) (by decide)⟩

/-! ## Row geometry toolkit -/

theorem log2_eq_of_range (i m : Nat) (h1 : 2 ^ m ≤ i) (h2 : i < 2 ^ (m + 1)) :
    Nat.log2 i = m := by
  have hpos : (0 : Nat) < 2 ^ m := Nat.pos_pow_of_pos m (by norm_num)
  have hi1 : 1 ≤ i := by omega
  have hle : Nat.log2 i ≤ m := (log2_le_iff i m hi1).mpr h2
  rcases Nat.eq_zero_or_pos m with hm | hm
  · omega
  · by_contra hlt
    have h3 : Nat.log2 i ≤ m - 1 := by omega
    have h4 : i < 2 ^ (m - 1 + 1) := (log2_le_iff i (m - 1) hi1).mp h3
    have h5 : m - 1 + 1 = m := by omega
    rw [h5] at h4
    omega

theorem log2_double (i : Nat) (h1 : 1 ≤ i) : Nat.log2 (2 * i) = Nat.log2 i + 1 := by
  rw [log2_rec (2 * i) (by omega)]
  congr 1
  congr 1
  omega

theorem log2_double_succ (i : Nat) (h1 : 1 ≤ i) :
    Nat.log2 (2 * i + 1) = Nat.log2 i + 1 := by
  rw [log2_rec (2 * i + 1) (by omega)]
  congr 1
  congr 1
  omega

theorem log2_half (i : Nat) (h2 : 2 ≤ i) : Nat.log2 (i / 2) = Nat.log2 i - 1 := by
  rw [log2_rec i h2]
  omega

theorem cpos_bounds (H i : Nat) (h1 : 1 ≤ i) (hH : Nat.log2 i ≤ H) :
    2 ^ (Nat.log2 i % 4) ≤ cpos H i ∧ cpos H i < 2 ^ (Nat.log2 i % 4 + 1) := by
  rw [cpos_eq H i h1 hH]
  have hpos : (0 : Nat) < 2 ^ (Nat.log2 i % 4) := Nat.pos_pow_of_pos _ (by norm_num)
  have hmod : i % 2 ^ (Nat.log2 i % 4) < 2 ^ (Nat.log2 i % 4) := Nat.mod_lt _ hpos
  constructor
  · omega
  · rw [pow_succ]
    omega

theorem cpos_lt_16 (H i : Nat) (h1 : 1 ≤ i) (hH : Nat.log2 i ≤ H) :
    1 ≤ cpos H i ∧ cpos H i < 16 := by
  have hb := cpos_bounds H i h1 hH
  have hd : Nat.log2 i % 4 < 4 := Nat.mod_lt _ (by norm_num)
  have h1' : (1 : Nat) ≤ 2 ^ (Nat.log2 i % 4) := Nat.one_le_two_pow
  have h2' : (2 : Nat) ^ (Nat.log2 i % 4 + 1) ≤ 2 ^ 4 :=
    Nat.pow_le_pow_right (by norm_num) (by omega)
  have h16 : (2 : Nat) ^ 4 = 16 := by norm_num
  constructor
  · omega
  · omega

theorem log2_cpos (H i : Nat) (h1 : 1 ≤ i) (hH : Nat.log2 i ≤ H) :
    Nat.log2 (cpos H i) = Nat.log2 i % 4 := by
  have hb := cpos_bounds H i h1 hH
  exact log2_eq_of_range _ _ hb.1 hb.2

theorem croot_facts (H i : Nat) (h1 : 1 ≤ i) (hH : Nat.log2 i ≤ H) :
    1 ≤ croot H i ∧ croot H i ≤ i ∧
      Nat.log2 (croot H i) = Nat.log2 i - Nat.log2 i % 4 ∧
      Nat.log2 (croot H i) % 4 = 0 := by
  rw [croot_eq H i h1 hH]
  have hd : Nat.log2 i % 4 ≤ Nat.log2 i := Nat.mod_le _ _
  have hpos : (0 : Nat) < 2 ^ (Nat.log2 i % 4) := Nat.pos_pow_of_pos _ (by norm_num)
  have hself : 2 ^ Nat.log2 i ≤ i := Nat.log2_self_le (by omega)
  have hup : i < 2 ^ (Nat.log2 i + 1) := Nat.lt_log2_self
  have hlow : 2 ^ (Nat.log2 i - Nat.log2 i % 4) ≤ i / 2 ^ (Nat.log2 i % 4) := by
    rw [Nat.le_div_iff_mul_le hpos, ← pow_add]
    have : Nat.log2 i - Nat.log2 i % 4 + Nat.log2 i % 4 = Nat.log2 i := by omega
    rw [this]
    exact hself
  have hhigh : i / 2 ^ (Nat.log2 i % 4) < 2 ^ (Nat.log2 i - Nat.log2 i % 4 + 1) := by
    rw [Nat.div_lt_iff_lt_mul hpos, ← pow_add]
    have : Nat.log2 i - Nat.log2 i % 4 + 1 + Nat.log2 i % 4 = Nat.log2 i + 1 := by omega
    rw [this]
    exact hup
  have hlog : Nat.log2 (i / 2 ^ (Nat.log2 i % 4)) = Nat.log2 i - Nat.log2 i % 4 :=
    log2_eq_of_range _ _ hlow hhigh
  have h1le : (1 : Nat) ≤ 2 ^ (Nat.log2 i - Nat.log2 i % 4) := Nat.one_le_two_pow
  refine ⟨by omega, Nat.div_le_self _ _, hlog, ?_⟩
  rw [hlog]
  obtain ⟨q, hq⟩ : ∃ q, Nat.log2 i = 4 * q + Nat.log2 i % 4 :=
    ⟨Nat.log2 i / 4, by omega⟩
  have : Nat.log2 i - Nat.log2 i % 4 = 4 * q := by omega
  rw [this]
  omega

theorem cpos_one_of_fresh (H i : Nat) (h1 : 1 ≤ i) (hH : Nat.log2 i ≤ H)
    (h0 : Nat.log2 i % 4 = 0) : cpos H i = 1 := by
  rw [cpos_eq H i h1 hH, h0]
  simp [Nat.mod_one]

theorem croot_self_of_fresh (H i : Nat) (h1 : 1 ≤ i) (hH : Nat.log2 i ≤ H)
    (h0 : Nat.log2 i % 4 = 0) : croot H i = i := by
  rw [croot_eq H i h1 hH, h0]
  simp

theorem croot_ne_self (H i : Nat) (h1 : 1 ≤ i) (hH : Nat.log2 i ≤ H)
    (h0 : Nat.log2 i % 4 ≠ 0) : croot H i ≠ i := by
  rw [croot_eq H i h1 hH]
  intro he
  obtain ⟨e, hev⟩ : ∃ e, Nat.log2 i % 4 = e + 1 := ⟨Nat.log2 i % 4 - 1, by omega⟩
  rw [hev, pow_succ, mul_comm (2 ^ e) 2, ← Nat.div_div_eq_div_mul] at he
  have hx : i / 2 / 2 ^ e ≤ i / 2 := Nat.div_le_self _ _
  have h2 : i / 2 < i := Nat.div_lt_self (by omega) (by norm_num)
  omega

theorem mod_pow_parent (i d : Nat) : i % 2 ^ (d + 1) = 2 * (i / 2 % 2 ^ d) + i % 2 := by
  rw [pow_succ, mul_comm (2 ^ d) 2, Nat.mod_mul]
  omega

theorem cpos_parent (H i : Nat) (h2 : 2 ≤ i) (hH : Nat.log2 i ≤ H)
    (hd : Nat.log2 i % 4 ≠ 0) :
    cpos H (i / 2) = cpos H i / 2 ∧ croot H (i / 2) = croot H i := by
  have h1 : 1 ≤ i := by omega
  have hhalf1 : 1 ≤ i / 2 := by omega
  have hlh : Nat.log2 (i / 2) = Nat.log2 i - 1 := log2_half i h2
  have hl1 : 1 ≤ Nat.log2 i := log2_one_le i h2
  have hdm : Nat.log2 (i / 2) % 4 = Nat.log2 i % 4 - 1 := by
    obtain ⟨q, hq⟩ : ∃ q, Nat.log2 i = 4 * q + Nat.log2 i % 4 :=
      ⟨Nat.log2 i / 4, by omega⟩
    have hr : Nat.log2 i % 4 < 4 := Nat.mod_lt _ (by norm_num)
    rw [hlh]
    omega
  have hHh : Nat.log2 (i / 2) ≤ H := by omega
  obtain ⟨e, he⟩ : ∃ e, Nat.log2 i % 4 = e + 1 := ⟨Nat.log2 i % 4 - 1, by omega⟩
  constructor
  · rw [cpos_eq H i h1 hH, cpos_eq H (i / 2) hhalf1 hHh, hdm, he]
    have hee : e + 1 - 1 = e := by omega
    rw [hee, mod_pow_parent i e]
    have hpos : (0 : Nat) < 2 ^ e := Nat.pos_pow_of_pos _ (by norm_num)
    rw [pow_succ]
    omega
  · rw [croot_eq H i h1 hH, croot_eq H (i / 2) hhalf1 hHh, hdm, he]
    have hee : e + 1 - 1 = e := by omega
    rw [hee, pow_succ, mul_comm (2 ^ e) 2, ← Nat.div_div_eq_div_mul]

theorem cpos_child (H i : Nat) (h1 : 1 ≤ i) (hH : Nat.log2 i + 1 ≤ H)
    (hd : Nat.log2 i % 4 ≤ 2) :
    cpos H (2 * i) = 2 * cpos H i ∧ cpos H (2 * i + 1) = 2 * cpos H i + 1 ∧
      croot H (2 * i) = croot H i ∧ croot H (2 * i + 1) = croot H i := by
  have hl0 : Nat.log2 (2 * i) = Nat.log2 i + 1 := log2_double i h1
  have hl1 : Nat.log2 (2 * i + 1) = Nat.log2 i + 1 := log2_double_succ i h1
  have hm0 : Nat.log2 (2 * i) % 4 = Nat.log2 i % 4 + 1 := by rw [hl0]; omega
  have hm1 : Nat.log2 (2 * i + 1) % 4 = Nat.log2 i % 4 + 1 := by rw [hl1]; omega
  have hiH : Nat.log2 i ≤ H := by omega
  have h2H : Nat.log2 (2 * i) ≤ H := by omega
  have h2H' : Nat.log2 (2 * i + 1) ≤ H := by omega
  have hpos : (0 : Nat) < 2 ^ (Nat.log2 i % 4) := Nat.pos_pow_of_pos _ (by norm_num)
  have hmodlt : i % 2 ^ (Nat.log2 i % 4) < 2 ^ (Nat.log2 i % 4) := Nat.mod_lt _ hpos
  have hme : (2 * i) % 2 ^ (Nat.log2 i % 4 + 1) = 2 * (i % 2 ^ (Nat.log2 i % 4)) := by
    rw [pow_succ, mul_comm (2 ^ (Nat.log2 i % 4)) 2]
    exact Nat.mul_mod_mul_left 2 i (2 ^ (Nat.log2 i % 4))
  have hmo : (2 * i + 1) % 2 ^ (Nat.log2 i % 4 + 1) =
      2 * (i % 2 ^ (Nat.log2 i % 4)) + 1 := by
    rw [mod_pow_parent]
    have hx : (2 * i + 1) / 2 = i := by omega
    have hy : (2 * i + 1) % 2 = 1 := by omega
    rw [hx, hy]
  have hde : (2 * i) / 2 ^ (Nat.log2 i % 4 + 1) = i / 2 ^ (Nat.log2 i % 4) := by
    rw [pow_succ, mul_comm (2 ^ (Nat.log2 i % 4)) 2, ← Nat.div_div_eq_div_mul]
    congr 1
    omega
  have hdo : (2 * i + 1) / 2 ^ (Nat.log2 i % 4 + 1) = i / 2 ^ (Nat.log2 i % 4) := by
    rw [pow_succ, mul_comm (2 ^ (Nat.log2 i % 4)) 2, ← Nat.div_div_eq_div_mul]
    congr 1
    omega
  refine ⟨?_, ?_, ?_, ?_⟩
  · rw [cpos_eq H (2 * i) (by omega) h2H, cpos_eq H i h1 hiH, hm0, hme, pow_succ]
    ring
  · rw [cpos_eq H (2 * i + 1) (by omega) h2H', cpos_eq H i h1 hiH, hm1, hmo, pow_succ]
    ring
  · rw [croot_eq H (2 * i) (by omega) h2H, croot_eq H i h1 hiH, hm0, hde]
  · rw [croot_eq H (2 * i + 1) (by omega) h2H', croot_eq H i h1 hiH, hm1, hdo]

theorem node_eq_of_parts (H a b : Nat) (ha1 : 1 ≤ a) (hb1 : 1 ≤ b)
    (haH : Nat.log2 a ≤ H) (hbH : Nat.log2 b ≤ H) (hlog : Nat.log2 a = Nat.log2 b)
    (hcr : croot H a = croot H b) (hcp : cpos H a = cpos H b) : a = b := by
  rw [croot_eq H a ha1 haH, croot_eq H b hb1 hbH, hlog] at hcr
  rw [cpos_eq H a ha1 haH, cpos_eq H b hb1 hbH, hlog] at hcp
  have hcp' : a % 2 ^ (Nat.log2 b % 4) = b % 2 ^ (Nat.log2 b % 4) := by omega
  calc a = 2 ^ (Nat.log2 b % 4) * (a / 2 ^ (Nat.log2 b % 4)) + a % 2 ^ (Nat.log2 b % 4) :=
        (Nat.div_add_mod a _).symm
    _ = 2 ^ (Nat.log2 b % 4) * (b / 2 ^ (Nat.log2 b % 4)) + b % 2 ^ (Nat.log2 b % 4) := by
        rw [hcr, hcp']
    _ = b := Nat.div_add_mod b _

/-! ## OR-distribution of the locking walks -/

theorem lock_chain_go_or (H : Nat) :
    ∀ f r c v, lock_chain_go H f r c v = v ||| lock_chain_go H f r c 0 := by
  intro f
  induction f with
  | zero => intro r c v; simp [lock_chain_go]
  | succ f ih =>
    intro r c v
    simp only [lock_chain_go]
    by_cases hc : (c == r) = true
    · rw [if_pos hc, if_pos hc]
      simp
    · rw [if_neg hc, if_neg hc]
      rw [ih r (c / 2) (lock_not_leaf v (cpos H (c / 2))),
        ih r (c / 2) (lock_not_leaf 0 (cpos H (c / 2)))]
      simp only [lock_not_leaf, Nat.zero_or, Nat.or_assoc]

theorem lock_descendants_go_or (H : Nat) :
    ∀ f i v, lock_descendants_go H f i v = v ||| lock_descendants_go H f i 0 := by
  intro f
  induction f with
  | zero => intro i v; simp [lock_descendants_go]
  | succ f ih =>
    intro i v
    simp only [lock_descendants_go]
    by_cases hstop : 2 * i ≥ node_count H
    · rw [if_pos hstop, if_pos hstop]
      simp
    · rw [if_neg hstop, if_neg hstop]
      by_cases hleaf : (!decide (cpos H (2 * i) ≥ 8)) = true
      · rw [if_pos hleaf, if_pos hleaf]
        rw [ih (2 * i) (lock_not_leaf (lock_not_leaf v (cpos H (2 * i))) (cpos H (2 * i + 1))),
          ih (2 * i)
            (lock_not_leaf (lock_not_leaf 0 (cpos H (2 * i))) (cpos H (2 * i + 1)))]
        rw [ih (2 * i + 1), ih (2 * i + 1) (lock_not_leaf (lock_not_leaf 0 _) _ |||
          lock_descendants_go H f (2 * i) 0)]
        simp only [lock_not_leaf, Nat.zero_or, Nat.or_assoc]
      · rw [if_neg hleaf, if_neg hleaf]
        simp only [lock_leaf, Nat.zero_or, Nat.or_assoc]

/-! ## The in-container lock chain computes `chain_mask` -/

theorem chain_mask_one : chain_mask 1 = 0 := by decide

theorem chain_mask_step (q : Nat) (h2 : 2 ≤ q) (h16 : q < 16) :
    chain_mask q = (1 <<< (q / 2 - 1)) ||| chain_mask (q / 2) := by
  interval_cases q <;> decide

theorem lock_chain_run (H : Nat) :
    ∀ f c v, 1 ≤ c → Nat.log2 c ≤ H → c ≤ f →
      lock_chain_go H f (croot H c) c v = v ||| chain_mask (cpos H c) := by
  intro f
  induction f with
  | zero => intro c v h1 _ hf; omega
  | succ f ih =>
    intro c v h1 hH hf
    by_cases h0 : Nat.log2 c % 4 = 0
    · have hr : croot H c = c := croot_self_of_fresh H c h1 hH h0
      have hq : cpos H c = 1 := cpos_one_of_fresh H c h1 hH h0
      simp only [lock_chain_go]
      rw [if_pos (by rw [hr]; exact beq_self_eq_true c : (c == croot H c) = true), hq, chain_mask_one]
      simp
    · have hne : c ≠ croot H c := fun he => croot_ne_self H c h1 hH h0 he.symm
      have hc2 : 2 ≤ c := by
        by_contra hlt
        have hce : c = 1 := by omega
        subst hce
        have hl1 : Nat.log2 1 = 0 := by rw [Nat.log2]; norm_num
        omega
      have hpar := cpos_parent H c hc2 hH h0
      have hb := cpos_bounds H c h1 hH
      have h16 := (cpos_lt_16 H c h1 hH).2
      have hq2 : 2 ≤ cpos H c := by
        have hx : (2 : Nat) ^ 1 ≤ 2 ^ (Nat.log2 c % 4) :=
          Nat.pow_le_pow_right (by norm_num) (by omega)
        have hx2 : (2 : Nat) ^ 1 = 2 := by norm_num
        omega
      simp only [lock_chain_go]
      rw [if_neg (by simp only [beq_iff_eq]; exact hne)]
      have hroot : croot H c = croot H (c / 2) := hpar.2.symm
      rw [hroot, ih (c / 2) (lock_not_leaf v (cpos H (c / 2))) (by omega) (by
        have := log2_half c hc2
        omega) (by omega)]
      rw [hpar.1, lock_not_leaf, chain_mask_step (cpos H c) hq2 h16, Nat.or_assoc]

/-! ## Support of the committed masks -/

theorem tb_small (M j : Nat) (hM : M < 128) (hj : 7 ≤ j) : M.testBit j = false :=
  tb_of_lt (lt_of_lt_of_le hM
    (le_trans (by norm_num : (128 : Nat) ≤ 2 ^ 7)
      (Nat.pow_le_pow_right (by norm_num) hj)))

theorem chain_mask_lt (q : Nat) (hq : q < 16) : chain_mask q < 128 := by
  interval_cases q <;> decide

theorem chain_mask_support (q j : Nat) (hq : q < 16)
    (h : (chain_mask q).testBit j = true) :
    (2 ≤ q ∧ j + 1 = q / 2) ∨ (4 ≤ q ∧ j + 1 = q / 4) ∨ (8 ≤ q ∧ j + 1 = q / 8) := by
  have hj : j < 7 := by
    by_contra hj7
    rw [tb_small (chain_mask q) j (chain_mask_lt q hq) (by omega)] at h
    simp at h
  interval_cases q <;> interval_cases j <;> revert h <;> decide

/-- Bits added by `lock_descendants_go` all belong to slots strictly below the
node's own slot inside its container. -/
theorem ldg_support (H : Nat) :
    ∀ f i v j, 1 ≤ i → Nat.log2 i ≤ H → cpos H i < 8 →
      (lock_descendants_go H f i v).testBit j = true →
      v.testBit j = true ∨
      ∃ q, q < 16 ∧ (q / 2 = cpos H i ∨ q / 4 = cpos H i ∨ q / 8 = cpos H i) ∧
        ((q < 8 ∧ j + 1 = q) ∨
          (8 ≤ q ∧ (j = leaf_offset q ∨ j = leaf_offset q + 1 ∨ j = leaf_offset q + 4))) := by
  intro f
  induction f with
  | zero => intro i v j _ _ _ h; rw [lock_descendants_go] at h; exact Or.inl h
  | succ f ih =>
    intro i v j h1 hH h8 h
    rw [lock_descendants_go] at h
    by_cases hstop : 2 * i ≥ node_count H
    · rw [if_pos hstop] at h
      exact Or.inl h
    · rw [if_neg hstop] at h
      have hcnt : 2 * i ≤ node_count H := by omega
      have h2H : Nat.log2 (2 * i) ≤ H := log2_le_of_le_node_count H (2 * i) (by omega) hcnt
      have hdl : Nat.log2 (2 * i) = Nat.log2 i + 1 := log2_double i h1
      have hd2 : Nat.log2 i % 4 ≤ 2 := by
        have hb := cpos_bounds H i h1 hH
        by_contra hd3
        have he3 : Nat.log2 i % 4 = 3 := by
          have := Nat.mod_lt (Nat.log2 i) (show 0 < 4 by norm_num)
          omega
        rw [he3] at hb
        have h8' : (2 : Nat) ^ 3 = 8 := by norm_num
        omega
      have hch := cpos_child H i h1 (by omega) hd2
      have hcA : cpos H (2 * i) = 2 * cpos H i := hch.1
      have hcB : cpos H (2 * i + 1) = 2 * cpos H i + 1 := hch.2.1
      have hcp1 : 1 ≤ cpos H i := (cpos_lt_16 H i h1 hH).1
      have hcp16 : cpos H i < 16 := (cpos_lt_16 H i h1 hH).2
      by_cases hleaf : (!decide (cpos H (2 * i) ≥ 8)) = true
      · rw [if_pos hleaf] at h
        have h2i8 : 2 * cpos H i < 8 := by
          simp only [Bool.not_eq_true', decide_eq_false_iff_not, not_le] at hleaf
          rw [hcA] at hleaf
          exact hleaf
        rcases ih (2 * i + 1) _ j (by omega) (by
            have := log2_double_succ i h1
            omega) (by rw [hcB]; omega) h with h2 | ⟨q, hq16, hqr, hqb⟩
        · rcases ih (2 * i) _ j (by omega) h2H (by rw [hcA]; omega) h2
            with h3 | ⟨q, hq16, hqr, hqb⟩
          · rw [lock_not_leaf, lock_not_leaf, tb_or, tb_or, hcA, hcB] at h3
            rcases Bool.or_eq_true_iff.mp h3 with h4 | h4
            · rcases Bool.or_eq_true_iff.mp h4 with h5 | h5
              · exact Or.inl h5
              · rw [show (0x1 : Nat) = 2 ^ 0 from rfl, tb_single] at h5
                have hj := of_decide_eq_true h5
                exact Or.inr ⟨2 * cpos H i, by omega, Or.inl (by omega),
                  Or.inl ⟨by omega, by omega⟩⟩
            · rw [show (0x1 : Nat) = 2 ^ 0 from rfl, tb_single] at h4
              have hj := of_decide_eq_true h4
              exact Or.inr ⟨2 * cpos H i + 1, by omega, Or.inl (by omega),
                Or.inl ⟨by omega, by omega⟩⟩
          · rw [hcA] at hqr
            refine Or.inr ⟨q, hq16, ?_, hqb⟩
            rcases hqr with h5 | h5 | h5
            · exact Or.inr (Or.inl (by omega))
            · exact Or.inr (Or.inr (by omega))
            · exact absurd h5 (by omega)
        · rw [hcB] at hqr
          refine Or.inr ⟨q, hq16, ?_, hqb⟩
          rcases hqr with h5 | h5 | h5
          · exact Or.inr (Or.inl (by omega))
          · exact Or.inr (Or.inr (by omega))
          · exact absurd h5 (by omega)
      · rw [if_neg hleaf] at h
        have h2i8 : 8 ≤ 2 * cpos H i := by
          simp only [Bool.not_eq_true', decide_eq_false_iff_not, not_le] at hleaf
          rw [hcA] at hleaf
          omega
        rw [lock_leaf, lock_leaf, tb_or, tb_or, hcA, hcB] at h
        rcases Bool.or_eq_true_iff.mp h with h4 | h4
        · rcases Bool.or_eq_true_iff.mp h4 with h5 | h5
          · exact Or.inl h5
          · rw [show (0x13 : Nat) = 19 from rfl, tb_shift19] at h5
            refine Or.inr ⟨2 * cpos H i, by omega, Or.inl (by omega),
              Or.inr ⟨by omega, ?_⟩⟩
            rcases Bool.or_eq_true_iff.mp h5 with h6 | h6
            · rcases Bool.or_eq_true_iff.mp h6 with h7 | h7
              · exact Or.inl (of_decide_eq_true h7)
              · exact Or.inr (Or.inl (of_decide_eq_true h7))
            · exact Or.inr (Or.inr (of_decide_eq_true h6))
        · rw [show (0x13 : Nat) = 19 from rfl, tb_shift19] at h4
          refine Or.inr ⟨2 * cpos H i + 1, by omega, Or.inl (by omega),
            Or.inr ⟨by omega, ?_⟩⟩
          rcases Bool.or_eq_true_iff.mp h4 with h6 | h6
          · rcases Bool.or_eq_true_iff.mp h6 with h7 | h7
            · exact Or.inl (of_decide_eq_true h7)
            · exact Or.inr (Or.inl (of_decide_eq_true h7))
          · exact Or.inr (Or.inr (of_decide_eq_true h6))

/-! ## Bit views of the slot predicates used by the allocation path -/

theorem is_allocable_nonleaf_iff (w q : Nat) (h8 : q < 8) :
    is_allocable w q = true ↔ w.testBit (q - 1) = false := by
  rw [is_allocable, if_pos h8, show (0x1 : Nat) = 2 ^ 0 from rfl]
  rw [beq_iff_eq, and_single_eq_zero_iff, Nat.add_zero]

theorem is_allocable_leaf_iff (w q : Nat) (h8 : 8 ≤ q) :
    is_allocable w q = true ↔
      ∀ t, t < 5 → w.testBit (leaf_offset q + t) = false := by
  rw [is_allocable, if_neg (by omega : ¬ q < 8), beq_iff_eq]
  have hm : ((0x1F <<< 7 : Nat) <<< (5 * (q - 8))) = 31 <<< leaf_offset q := by
    rw [Nat.shiftLeft_shiftLeft]
    rfl
  rw [hm]
  constructor
  · intro h0 t ht
    have := congrArg (fun x => Nat.testBit x (leaf_offset q + t)) h0
    simp only [Nat.testBit_and, tb_shift31, Nat.zero_testBit] at this
    rcases hw : w.testBit (leaf_offset q + t) with _ | _
    · rfl
    · rw [hw] at this
      rw [decide_eq_true (by omega : leaf_offset q ≤ leaf_offset q + t),
        decide_eq_true (by omega : leaf_offset q + t < leaf_offset q + 5)] at this
      simp at this
  · intro h
    apply eq_zero_of_tb
    intro j
    rw [Nat.testBit_and, tb_shift31]
    by_cases hj : leaf_offset q ≤ j ∧ j < leaf_offset q + 5
    · have hz := h (j - leaf_offset q) (by omega)
      have hje : leaf_offset q + (j - leaf_offset q) = j := by omega
      rw [hje] at hz
      rw [hz]
      rfl
    · rcases Decidable.not_and_iff_or_not.mp hj with hj2 | hj2
      · rw [decide_eq_false hj2]
        simp
      · rw [decide_eq_false hj2]
        simp

theorem is_occupied_leaf_iff (w q : Nat) (h8 : 8 ≤ q) :
    is_occupied w q = true ↔ w.testBit (leaf_offset q + 4) = true := by
  rw [is_occupied, if_neg (by omega : ¬ q < 8), bne_iff_ne]
  have hm : ((0x1 <<< 6 : Nat) <<< (5 * (q - 7))) = 2 ^ 0 <<< (5 * (q - 7) + 6) := by
    rw [Nat.shiftLeft_shiftLeft, pow_zero, Nat.add_comm]
  have he : 5 * (q - 7) + 6 + 0 = leaf_offset q + 4 := by
    rw [leaf_offset]
    omega
  rw [hm]
  constructor
  · intro hocc
    rcases ht : w.testBit (leaf_offset q + 4) with _ | _
    · exact absurd (by rw [and_single_eq_zero_iff, he, ht]) hocc
    · rfl
  · intro ht hz
    rw [and_single_eq_zero_iff, he, ht] at hz
    simp at hz

theorem and_not_id (v m : Nat) (h : v &&& m = 0) : and_not v m = v := by
  rw [and_not, h, Nat.xor_zero]

theorem clean_left_coalesce_id (w q : Nat) (h : w.testBit (leaf_offset q + 3) = false) :
    clean_left_coalesce w q = w := by
  rw [clean_left_coalesce]
  apply and_not_id
  rw [show (COALESCE_LEFT : Nat) = 2 ^ 3 from rfl, and_single_eq_zero_iff]
  exact h

theorem clean_rigth_coalesce_id (w q : Nat) (h : w.testBit (leaf_offset q + 2) = false) :
    clean_rigth_coalesce w q = w := by
  rw [clean_rigth_coalesce]
  apply and_not_id
  rw [show (COALESCE_RIGHT : Nat) = 2 ^ 2 from rfl, and_single_eq_zero_iff]
  exact h

/-! ## Support and membership facts for `local_mask` -/

theorem local_mask_own_nonleaf (H i : Nat) (h8 : cpos H i < 8) :
    (local_mask H i).testBit (cpos H i - 1) = true := by
  rw [local_mask]
  rw [if_neg (by omega : ¬ cpos H i ≥ 8)]
  have hbase : (lock_not_leaf (lock_chain H (croot H i) i 0) (cpos H i)).testBit
      (cpos H i - 1) = true := by
    rw [lock_not_leaf, tb_or, show (0x1 : Nat) = 2 ^ 0 from rfl, tb_single]
    simp
  by_cases hc : 2 * i < node_count H
  · rw [if_pos hc, lock_descendants, lock_descendants_go_or, tb_or, hbase]
    rfl
  · rw [if_neg hc]
    exact hbase

theorem local_mask_own_leaf (H i : Nat) (h8 : 8 ≤ cpos H i) :
    (local_mask H i).testBit (leaf_offset (cpos H i)) = true := by
  rw [local_mask, if_pos h8, lock_leaf, tb_or,
    show (0x13 : Nat) = 19 from rfl, tb_shift19]
  simp

theorem local_mask_support (H i j : Nat) (h1 : 1 ≤ i) (hH : Nat.log2 i ≤ H)
    (h : (local_mask H i).testBit j = true) :
    ((2 ≤ cpos H i ∧ j + 1 = cpos H i / 2) ∨ (4 ≤ cpos H i ∧ j + 1 = cpos H i / 4) ∨
      (8 ≤ cpos H i ∧ j + 1 = cpos H i / 8)) ∨
    (cpos H i < 8 ∧ j + 1 = cpos H i) ∨
    (8 ≤ cpos H i ∧ (j = leaf_offset (cpos H i) ∨ j = leaf_offset (cpos H i) + 1 ∨
      j = leaf_offset (cpos H i) + 4)) ∨
    (∃ q, q < 16 ∧ (q / 2 = cpos H i ∨ q / 4 = cpos H i ∨ q / 8 = cpos H i) ∧
      ((q < 8 ∧ j + 1 = q) ∨
        (8 ≤ q ∧ (j = leaf_offset q ∨ j = leaf_offset q + 1 ∨ j = leaf_offset q + 4)))) := by
  have hq16 := cpos_lt_16 H i h1 hH
  have hchain : lock_chain H (croot H i) i 0 = chain_mask (cpos H i) := by
    rw [lock_chain, lock_chain_run H i i 0 h1 hH (le_refl i), Nat.zero_or]
  rw [local_mask] at h
  by_cases h8 : cpos H i ≥ 8
  · rw [if_pos h8, lock_leaf, tb_or, hchain] at h
    rcases Bool.or_eq_true_iff.mp h with h2 | h2
    · exact Or.inl (chain_mask_support (cpos H i) j hq16.2 h2)
    · rw [show (0x13 : Nat) = 19 from rfl, tb_shift19] at h2
      refine Or.inr (Or.inr (Or.inl ⟨h8, ?_⟩))
      rcases Bool.or_eq_true_iff.mp h2 with h3 | h3
      · rcases Bool.or_eq_true_iff.mp h3 with h4 | h4
        · exact Or.inl (of_decide_eq_true h4)
        · exact Or.inr (Or.inl (of_decide_eq_true h4))
      · exact Or.inr (Or.inr (of_decide_eq_true h3))
  · rw [if_neg h8] at h
    have hstep : ∀ hx : (lock_not_leaf (lock_chain H (croot H i) i 0)
        (cpos H i)).testBit j = true,
        ((2 ≤ cpos H i ∧ j + 1 = cpos H i / 2) ∨ (4 ≤ cpos H i ∧ j + 1 = cpos H i / 4) ∨
          (8 ≤ cpos H i ∧ j + 1 = cpos H i / 8)) ∨
        (cpos H i < 8 ∧ j + 1 = cpos H i) ∨
        (8 ≤ cpos H i ∧ (j = leaf_offset (cpos H i) ∨ j = leaf_offset (cpos H i) + 1 ∨
          j = leaf_offset (cpos H i) + 4)) ∨
        (∃ q, q < 16 ∧ (q / 2 = cpos H i ∨ q / 4 = cpos H i ∨ q / 8 = cpos H i) ∧
          ((q < 8 ∧ j + 1 = q) ∨
            (8 ≤ q ∧ (j = leaf_offset q ∨ j = leaf_offset q + 1 ∨
              j = leaf_offset q + 4)))) := by
      intro hx
      rw [lock_not_leaf, tb_or, hchain] at hx
      rcases Bool.or_eq_true_iff.mp hx with h2 | h2
      · exact Or.inl (chain_mask_support (cpos H i) j hq16.2 h2)
      · rw [show (0x1 : Nat) = 2 ^ 0 from rfl, tb_single] at h2
        have hj := of_decide_eq_true h2
        exact Or.inr (Or.inl ⟨by omega, by omega⟩)
    by_cases hc : 2 * i < node_count H
    · rw [if_pos hc] at h
      rcases ldg_support H 4 i _ j h1 hH (by omega) h with h2 | h2
      · exact hstep h2
      · exact Or.inr (Or.inr (Or.inr h2))
    · rw [if_neg hc] at h
      exact hstep h

/-! ## The `check_parent` chain: geometry and mask support -/

theorem cp_chain_facts (H : Nat) :
    ∀ fuel r, 2 ≤ r → Nat.log2 r % 4 = 0 → Nat.log2 r ≤ H →
      ∀ p ∈ cp_chain H fuel r,
        1 ≤ p ∧ 8 ≤ cpos H p ∧ cpos H p < 16 ∧ Nat.log2 p ≤ H ∧
        Nat.log2 p % 4 = 3 ∧ 2 ≤ p ∧
        1 ≤ croot H p ∧ Nat.log2 (croot H p) < Nat.log2 r ∧
        Nat.log2 (croot H p) % 4 = 0 ∧ Nat.log2 (croot H p) ≤ H ∧
        cpos H (croot H p) = 1 := by
  intro fuel
  induction fuel with
  | zero =>
    intro r _ _ _ p hp
    rw [cp_chain] at hp
    cases hp
  | succ fuel ih =>
    intro r h2 h0 hH p hp
    rw [cp_chain] at hp
    rw [if_neg (by omega : ¬ r < 2)] at hp
    have hl1 : 1 ≤ Nat.log2 r := log2_one_le r h2
    have hl4 : 4 ≤ Nat.log2 r := by omega
    have hr16 : 16 ≤ r := by
      have hx : (2 : Nat) ^ 4 ≤ 2 ^ Nat.log2 r := Nat.pow_le_pow_right (by norm_num) hl4
      have hy : 2 ^ Nat.log2 r ≤ r := Nat.log2_self_le (by omega)
      have hz : (2 : Nat) ^ 4 = 16 := by norm_num
      omega
    have hlp : Nat.log2 (r / 2) = Nat.log2 r - 1 := log2_half r h2
    have hpm : Nat.log2 (r / 2) % 4 = 3 := by omega
    have hpH : Nat.log2 (r / 2) ≤ H := by omega
    have hp1 : 1 ≤ r / 2 := by omega
    have hcb := cpos_bounds H (r / 2) hp1 hpH
    rw [hpm] at hcb
    have h8 : (2 : Nat) ^ 3 = 8 := by norm_num
    have h16 : (2 : Nat) ^ 4 = 16 := by norm_num
    have hcf := croot_facts H (r / 2) hp1 hpH
    have hcposr : cpos H (croot H (r / 2)) = 1 :=
      cpos_one_of_fresh H (croot H (r / 2)) hcf.1 (by omega) hcf.2.2.2
    have headf : 1 ≤ r / 2 ∧ 8 ≤ cpos H (r / 2) ∧ cpos H (r / 2) < 16 ∧
        Nat.log2 (r / 2) ≤ H ∧ Nat.log2 (r / 2) % 4 = 3 ∧ 2 ≤ r / 2 ∧
        1 ≤ croot H (r / 2) ∧ Nat.log2 (croot H (r / 2)) < Nat.log2 r ∧
        Nat.log2 (croot H (r / 2)) % 4 = 0 ∧ Nat.log2 (croot H (r / 2)) ≤ H ∧
        cpos H (croot H (r / 2)) = 1 := by
      refine ⟨hp1, by omega, by omega, hpH, hpm, by omega, hcf.1, ?_, hcf.2.2.2, by omega,
        hcposr⟩
      omega
    by_cases hd1 : (croot H (r / 2) == 1) = true
    · rw [if_pos hd1] at hp
      rcases List.mem_singleton.mp hp with rfl
      exact headf
    · rw [if_neg hd1] at hp
      rcases List.mem_cons.mp hp with rfl | htail
      · exact headf
      · have hd2 : 2 ≤ croot H (r / 2) := by
          have hne1 : croot H (r / 2) ≠ 1 := by
            intro he
            rw [he] at hd1
            exact hd1 rfl
          have := hcf.1
          omega
        have := ih (croot H (r / 2)) hd2 hcf.2.2.2 (by omega) p htail
        refine ⟨this.1, this.2.1, this.2.2.1, this.2.2.2.1, this.2.2.2.2.1,
          this.2.2.2.2.2.1, this.2.2.2.2.2.2.1, ?_, this.2.2.2.2.2.2.2.2.1,
          this.2.2.2.2.2.2.2.2.2.1, this.2.2.2.2.2.2.2.2.2.2⟩
        have hlt := this.2.2.2.2.2.2.2.1
        omega

theorem cp_mask_support (H : Nat) :
    ∀ fuel r D j, 2 ≤ r → Nat.log2 r % 4 = 0 → Nat.log2 r ≤ H →
      (cp_mask_go H fuel r D).testBit j = true →
      ∃ p, p ∈ cp_chain H fuel r ∧ D = croot H p ∧
        (j = leaf_offset (cpos H p) ∨ j = leaf_offset (cpos H p) + 1 ∨ j < 7) := by
  intro fuel
  induction fuel with
  | zero =>
    intro r D j _ _ _ h
    rw [cp_mask_go] at h
    simp [Nat.zero_testBit] at h
  | succ fuel ih =>
    intro r D j h2 h0 hH h
    rw [cp_mask_go] at h
    rw [if_neg (by omega : ¬ r < 2)] at h
    have hl1 : 1 ≤ Nat.log2 r := log2_one_le r h2
    have hl4 : 4 ≤ Nat.log2 r := by omega
    have hr16 : 16 ≤ r := by
      have hx : (2 : Nat) ^ 4 ≤ 2 ^ Nat.log2 r := Nat.pow_le_pow_right (by norm_num) hl4
      have hy : 2 ^ Nat.log2 r ≤ r := Nat.log2_self_le (by omega)
      have hz : (2 : Nat) ^ 4 = 16 := by norm_num
      omega
    have hlp : Nat.log2 (r / 2) = Nat.log2 r - 1 := log2_half r h2
    have hpm : Nat.log2 (r / 2) % 4 = 3 := by omega
    have hpH : Nat.log2 (r / 2) ≤ H := by omega
    have hp1 : 1 ≤ r / 2 := by omega
    have hcb := cpos_bounds H (r / 2) hp1 hpH
    rw [hpm] at hcb
    have h8c : (2 : Nat) ^ 3 = 8 := by norm_num
    have h16c : (2 : Nat) ^ 4 = 16 := by norm_num
    have hcf := croot_facts H (r / 2) hp1 hpH
    have hpar1 := cpos_parent H (r / 2) (by omega) hpH (by omega)
    have hlp2 : Nat.log2 (r / 2 / 2) = Nat.log2 r - 2 := by
      rw [log2_half (r / 2) (by omega), hlp]
      omega
    have hpar2 := cpos_parent H (r / 2 / 2) (by omega) (by omega) (by omega)
    have hmbits : ∀ hm : ((if (r / 2) * 2 == r then
          LEFT_OCCUPIED <<< leaf_offset (cpos H (r / 2))
        else RIGHT_OCCUPIED <<< leaf_offset (cpos H (r / 2)))
        ||| (0x1 <<< (cpos H (r / 2 / 2) - 1))
        ||| (0x1 <<< (cpos H (r / 2 / 4) - 1))
        ||| (0x1 <<< (cpos H (croot H (r / 2)) - 1))).testBit j = true,
        j = leaf_offset (cpos H (r / 2)) ∨ j = leaf_offset (cpos H (r / 2)) + 1 ∨ j < 7 := by
      intro hm
      rw [tb_or, tb_or, tb_or] at hm
      rcases Bool.or_eq_true_iff.mp hm with hm2 | hm2
      · rcases Bool.or_eq_true_iff.mp hm2 with hm3 | hm3
        · rcases Bool.or_eq_true_iff.mp hm3 with hm4 | hm4
          · by_cases hside : ((r / 2) * 2 == r) = true
            · rw [if_pos hside, show (LEFT_OCCUPIED : Nat) = 2 ^ 1 from rfl, tb_single] at hm4
              exact Or.inr (Or.inl (of_decide_eq_true hm4))
            · rw [if_neg hside, show (RIGHT_OCCUPIED : Nat) = 2 ^ 0 from rfl,
                tb_single] at hm4
              have := of_decide_eq_true hm4
              exact Or.inl (by omega)
          · rw [show (0x1 : Nat) = 2 ^ 0 from rfl, tb_single] at hm4
            have hj := of_decide_eq_true hm4
            have : cpos H (r / 2 / 2) = cpos H (r / 2) / 2 := hpar1.1
            omega
        · rw [show (0x1 : Nat) = 2 ^ 0 from rfl, tb_single] at hm3
          have hj := of_decide_eq_true hm3
          have hq4 : r / 2 / 4 = r / 2 / 2 / 2 := by omega
          have : cpos H (r / 2 / 2 / 2) = cpos H (r / 2 / 2) / 2 := hpar2.1
          have : cpos H (r / 2 / 2) = cpos H (r / 2) / 2 := hpar1.1
          rw [hq4] at hj
          omega
      · rw [show (0x1 : Nat) = 2 ^ 0 from rfl, tb_single] at hm2
        have hj := of_decide_eq_true hm2
        have hc1 : cpos H (croot H (r / 2)) = 1 :=
          cpos_one_of_fresh H (croot H (r / 2)) hcf.1 (by omega) hcf.2.2.2
        omega
    rw [cp_chain, if_neg (by omega : ¬ r < 2)]
    by_cases hd1 : (croot H (r / 2) == 1) = true
    · rw [if_pos hd1] at h
      rw [if_pos hd1]
      by_cases hD : D = croot H (r / 2)
      · rw [if_pos hD] at h
        exact ⟨r / 2, List.mem_singleton.mpr rfl, hD, hmbits h⟩
      · rw [if_neg hD] at h
        rw [Nat.zero_testBit] at h
        cases h
    · rw [if_neg hd1] at h
      rw [if_neg hd1]
      rw [tb_or] at h
      rcases Bool.or_eq_true_iff.mp h with h2' | h2'
      · by_cases hD : D = croot H (r / 2)
        · rw [if_pos hD] at h2'
          exact ⟨r / 2, List.mem_cons_self _ _, hD, hmbits h2'⟩
        · rw [if_neg hD] at h2'
          rw [Nat.zero_testBit] at h2'
          cases h2'
      · have hd2 : 2 ≤ croot H (r / 2) := by
          have hne : croot H (r / 2) ≠ 1 := by
            intro he
            rw [he] at hd1
            exact hd1 (by rfl)
          omega
        obtain ⟨p, hpmem, hpD, hpj⟩ := ih (croot H (r / 2)) D j hd2 hcf.2.2.2 (by omega) h2'
        exact ⟨p, List.mem_cons_of_mem _ hpmem, hpD, hpj⟩

theorem cp_mask_zero (H fuel r D : Nat) (h2 : 2 ≤ r) (h0 : Nat.log2 r % 4 = 0)
    (hH : Nat.log2 r ≤ H) (hne : ∀ p ∈ cp_chain H fuel r, croot H p ≠ D) :
    cp_mask_go H fuel r D = 0 := by
  apply eq_zero_of_tb
  intro j
  rcases h : (cp_mask_go H fuel r D).testBit j with _ | _
  · rfl
  · obtain ⟨p, hpmem, hpD, _⟩ := cp_mask_support H fuel r D j h2 h0 hH h
    exact absurd hpD.symm (hne p hpmem)

/-! ## Word characterization of pure row-allocation states -/

theorem word_of_nil (H d : Nat) : word_of H [] d = 0 := rfl

theorem word_of_cons (H b : Nat) (L : List Nat) (d : Nat) :
    word_of H (b :: L) d = alloc_delta H b d ||| word_of H L d := rfl

theorem word_of_tb (H : Nat) (L : List Nat) (d j : Nat) :
    (word_of H L d).testBit j = true ↔ ∃ b ∈ L, (alloc_delta H b d).testBit j = true := by
  induction L with
  | nil =>
    rw [word_of_nil, Nat.zero_testBit]
    simp
  | cons b L ih =>
    rw [word_of_cons, tb_or]
    constructor
    · intro h
      rcases Bool.or_eq_true_iff.mp h with h2 | h2
      · exact ⟨b, List.mem_cons_self _ _, h2⟩
      · obtain ⟨c, hc, hcb⟩ := ih.mp h2
        exact ⟨c, List.mem_cons_of_mem _ hc, hcb⟩
    · rintro ⟨c, hc, hcb⟩
      rcases List.mem_cons.mp hc with rfl | hc2
      · rw [hcb]
        rfl
      · rw [ih.mpr ⟨c, hc2, hcb⟩]
        simp

theorem log2_of_div (q c e s : Nat) (hdiv : q / 2 ^ s = c) (hc1 : 2 ^ e ≤ c)
    (hc2 : c < 2 ^ (e + 1)) : Nat.log2 q = e + s := by
  have hpos : (0 : Nat) < 2 ^ s := Nat.pos_pow_of_pos s (by norm_num)
  have hlow : c * 2 ^ s ≤ q := (Nat.le_div_iff_mul_le hpos).mp (le_of_eq hdiv.symm)
  have hhigh : q < (c + 1) * 2 ^ s :=
    (Nat.div_lt_iff_lt_mul hpos).mp (by omega)
  apply log2_eq_of_range
  · calc (2 : Nat) ^ (e + s) = 2 ^ e * 2 ^ s := pow_add 2 e s
    _ ≤ c * 2 ^ s := Nat.mul_le_mul_right _ hc1
    _ ≤ q := hlow
  · calc q < (c + 1) * 2 ^ s := hhigh
    _ ≤ 2 ^ (e + 1) * 2 ^ s := Nat.mul_le_mul_right _ (by omega)
    _ = 2 ^ (e + s + 1) := by rw [← pow_add]; ring_nf

theorem leaf_field_inj (x y j : Nat) (hx : 8 ≤ x) (hy : 8 ≤ y)
    (h1 : leaf_offset x ≤ j) (h2 : j ≤ leaf_offset x + 4)
    (h3 : leaf_offset y ≤ j) (h4 : j ≤ leaf_offset y + 4) : x = y := by
  simp only [leaf_offset] at h1 h2 h3 h4
  omega

theorem delta_own_nonleaf (H i : Nat) (h8 : cpos H i < 8) :
    (alloc_delta H i (croot H i)).testBit (cpos H i - 1) = true := by
  rw [alloc_delta, tb_or, if_pos rfl, local_mask_own_nonleaf H i h8]
  rfl

theorem delta_own_leaf (H i : Nat) (h8 : 8 ≤ cpos H i) :
    (alloc_delta H i (croot H i)).testBit (leaf_offset (cpos H i)) = true := by
  rw [alloc_delta, tb_or, if_pos rfl, local_mask_own_leaf H i h8]
  rfl

theorem delta_coalesce_false (H b D j : Nat) (hb1 : 1 ≤ b) (hbH : Nat.log2 b ≤ H)
    (hj7 : 7 ≤ j) (hj5 : (j - 7) % 5 = 2 ∨ (j - 7) % 5 = 3) :
    (alloc_delta H b D).testBit j = false := by
  rcases h : (alloc_delta H b D).testBit j with _ | _
  · rfl
  · exfalso
    rw [alloc_delta, tb_or] at h
    have hb16 := cpos_lt_16 H b hb1 hbH
    rcases Bool.or_eq_true_iff.mp h with h2 | h2
    · by_cases hD : D = croot H b
      · rw [if_pos hD] at h2
        rcases local_mask_support H b j hb1 hbH h2 with hanc | hown | hleaf | hdesc
        · rcases hanc with ⟨_, hj⟩ | ⟨_, hj⟩ | ⟨_, hj⟩ <;> omega
        · omega
        · obtain ⟨h8, hj⟩ := hleaf
          simp only [leaf_offset] at hj
          omega
        · obtain ⟨q, hq16, _, hqb⟩ := hdesc
          rcases hqb with ⟨hq8, hj⟩ | ⟨hq8, hj⟩
          · omega
          · simp only [leaf_offset] at hj
            omega
      · rw [if_neg hD, Nat.zero_testBit] at h2
        cases h2
    · by_cases h1 : (croot H b == 1) = true
      · rw [if_pos h1, Nat.zero_testBit] at h2
        cases h2
      · rw [if_neg h1] at h2
        have hcf := croot_facts H b hb1 hbH
        have hr2 : 2 ≤ croot H b := by
          have hne : croot H b ≠ 1 := by
            intro he
            rw [he] at h1
            exact h1 rfl
          omega
        obtain ⟨p, hpmem, _, hpj⟩ := cp_mask_support H (croot H b) (croot H b) D j hr2
          hcf.2.2.2 (by omega) h2
        have hpf := cp_chain_facts H (croot H b) (croot H b) hr2 hcf.2.2.2 (by omega) p hpmem
        have hp8 : 8 ≤ cpos H p := hpf.2.1
        rcases hpj with hj | hj | hj
        · simp only [leaf_offset] at hj
          omega
        · simp only [leaf_offset] at hj
          omega
        · omega

theorem delta_leaflock_false (H b D j : Nat) (hb1 : 1 ≤ b) (hbH : Nat.log2 b ≤ H)
    (hD : D ≠ croot H b) (hj7 : 7 ≤ j) (hj5 : (j - 7) % 5 = 4) :
    (alloc_delta H b D).testBit j = false := by
  rcases h : (alloc_delta H b D).testBit j with _ | _
  · rfl
  · exfalso
    rw [alloc_delta, tb_or] at h
    rcases Bool.or_eq_true_iff.mp h with h2 | h2
    · rw [if_neg hD, Nat.zero_testBit] at h2
      cases h2
    · by_cases h1 : (croot H b == 1) = true
      · rw [if_pos h1, Nat.zero_testBit] at h2
        cases h2
      · rw [if_neg h1] at h2
        have hcf := croot_facts H b hb1 hbH
        have hr2 : 2 ≤ croot H b := by
          have hne : croot H b ≠ 1 := by
            intro he
            rw [he] at h1
            exact h1 rfl
          omega
        obtain ⟨p, hpmem, _, hpj⟩ := cp_mask_support H (croot H b) (croot H b) D j hr2
          hcf.2.2.2 (by omega) h2
        have hpf := cp_chain_facts H (croot H b) (croot H b) hr2 hcf.2.2.2 (by omega) p hpmem
        have hp8 : 8 ≤ cpos H p := hpf.2.1
        rcases hpj with hj | hj | hj
        · simp only [leaf_offset] at hj
          omega
        · simp only [leaf_offset] at hj
          omega
        · omega

theorem delta_foreign_row (H m a b j : Nat) (hm : m ≤ H)
    (ha : 2 ^ m ≤ a ∧ a < 2 ^ (m + 1)) (hb : 2 ^ m ≤ b ∧ b < 2 ^ (m + 1)) (hab : a ≠ b)
    (hj : (cpos H a < 8 ∧ j + 1 = cpos H a) ∨
      (8 ≤ cpos H a ∧ leaf_offset (cpos H a) ≤ j ∧ j ≤ leaf_offset (cpos H a) + 4)) :
    (alloc_delta H b (croot H a)).testBit j = false := by
  have hpow1 : (1 : Nat) ≤ 2 ^ m := Nat.one_le_two_pow
  have ha1 : 1 ≤ a := by omega
  have hb1 : 1 ≤ b := by omega
  have hla : Nat.log2 a = m := log2_eq_of_range a m ha.1 ha.2
  have hlb : Nat.log2 b = m := log2_eq_of_range b m hb.1 hb.2
  have haH : Nat.log2 a ≤ H := by omega
  have hbH : Nat.log2 b ≤ H := by omega
  have hea : Nat.log2 (cpos H a) = m % 4 := by
    rw [log2_cpos H a ha1 haH, hla]
  have heb : Nat.log2 (cpos H b) = m % 4 := by
    rw [log2_cpos H b hb1 hbH, hlb]
  have hba := cpos_lt_16 H a ha1 haH
  have hbb := cpos_lt_16 H b hb1 hbH
  have hcba := cpos_bounds H b hb1 hbH
  rw [hlb] at hcba
  have hcra := croot_facts H a ha1 haH
  have hcrb := croot_facts H b hb1 hbH
  rcases h : (alloc_delta H b (croot H a)).testBit j with _ | _
  · rfl
  · exfalso
    rw [alloc_delta, tb_or] at h
    rcases Bool.or_eq_true_iff.mp h with h2 | h2
    · by_cases hD : croot H a = croot H b
      · rw [if_pos hD] at h2
        rcases local_mask_support H b j hb1 hbH h2 with hanc | hown | hleaf | hdesc
        · -- an in-container strict ancestor slot of b
          have hanc2 : ∃ s, 1 ≤ s ∧ 2 ^ s ≤ cpos H b ∧ j + 1 = cpos H b / 2 ^ s := by
            rcases hanc with ⟨hge, hj2⟩ | ⟨hge, hj2⟩ | ⟨hge, hj2⟩
            · exact ⟨1, by omega, by norm_num; omega, by norm_num; omega⟩
            · exact ⟨2, by omega, by norm_num; omega, by norm_num; omega⟩
            · exact ⟨3, by omega, by norm_num; omega, by norm_num; omega⟩
          obtain ⟨t, ht1, htle, hjt⟩ := hanc2
          have hqlog : Nat.log2 (cpos H b) = Nat.log2 (cpos H b / 2 ^ t) + t := by
            have hdl : 1 ≤ cpos H b / 2 ^ t :=
              (Nat.le_div_iff_mul_le (Nat.pos_pow_of_pos t (by norm_num))).mpr (by omega)
            have := log2_of_div (cpos H b) (cpos H b / 2 ^ t)
              (Nat.log2 (cpos H b / 2 ^ t)) t rfl
              (Nat.log2_self_le (by omega)) Nat.lt_log2_self
            omega
          rcases hj with ⟨hc8, hjc⟩ | ⟨hc8, hjlo, hjhi⟩
          · -- the tested bit is slot cpos a, but the ancestor sits at a shallower depth
            have : cpos H a = cpos H b / 2 ^ t := by omega
            have : Nat.log2 (cpos H a) = Nat.log2 (cpos H b / 2 ^ t) := by rw [this]
            omega
          · -- leaf field bits are at least 7, ancestor slot bits are below 7
            have h2t : (2 : Nat) ^ 1 ≤ 2 ^ t := Nat.pow_le_pow_right (by norm_num) ht1
            have hdiv : cpos H b / 2 ^ t ≤ cpos H b / 2 := by
              have := Nat.div_le_div_right (c := 2) htle
              calc cpos H b / 2 ^ t ≤ cpos H b / 2 ^ 1 :=
                Nat.div_le_div_left h2t (by norm_num)
              _ = cpos H b / 2 := by norm_num
            simp only [leaf_offset] at hjlo
            omega
        · -- slot cpos b itself (non-leaf): forces a = b
          obtain ⟨hc8, hjc⟩ := hown
          rcases hj with ⟨hc8a, hjca⟩ | ⟨hc8a, hjlo, hjhi⟩
          · have hcc : cpos H a = cpos H b := by omega
            exact hab (node_eq_of_parts H a b ha1 hb1 haH hbH (by omega) hD hcc)
          · simp only [leaf_offset] at hjlo
            omega
        · -- the 5-bit field of slot cpos b itself: forces a = b
          obtain ⟨hc8, hjc⟩ := hleaf
          rcases hj with ⟨hc8a, hjca⟩ | ⟨hc8a, hjlo, hjhi⟩
          · simp only [leaf_offset] at hjc
            omega
          · have hcc : cpos H a = cpos H b := by
              apply leaf_field_inj (cpos H a) (cpos H b) j hc8a hc8 hjlo hjhi
              · simp only [leaf_offset] at hjc ⊢
                omega
              · simp only [leaf_offset] at hjc ⊢
                omega
            exact hab (node_eq_of_parts H a b ha1 hb1 haH hbH (by omega) hD hcc)
        · -- a strict in-container descendant slot of b
          obtain ⟨q, hq16, hqdiv, hqb⟩ := hdesc
          have hqlog : ∃ s, 1 ≤ s ∧ Nat.log2 q = m % 4 + s := by
            rcases hqdiv with hq | hq | hq
            · exact ⟨1, le_refl 1, log2_of_div q (cpos H b) (m % 4) 1
                (by norm_num; omega) (by omega) (by omega)⟩
            · exact ⟨2, by omega, log2_of_div q (cpos H b) (m % 4) 2
                (by norm_num; omega) (by omega) (by omega)⟩
            · exact ⟨3, by omega, log2_of_div q (cpos H b) (m % 4) 3
                (by norm_num; omega) (by omega) (by omega)⟩
          obtain ⟨t, ht1, hlq⟩ := hqlog
          rcases hqb with ⟨hq8, hjq⟩ | ⟨hq8, hjq⟩
          · rcases hj with ⟨hc8a, hjca⟩ | ⟨hc8a, hjlo, hjhi⟩
            · have hqa : cpos H a = q := by omega
              rw [← hqa] at hlq
              omega
            · simp only [leaf_offset] at hjlo
              omega
          · rcases hj with ⟨hc8a, hjca⟩ | ⟨hc8a, hjlo, hjhi⟩
            · simp only [leaf_offset] at hjq
              omega
            · have hqa : cpos H a = q := by
                apply leaf_field_inj (cpos H a) q j hc8a hq8 hjlo hjhi
                · simp only [leaf_offset] at hjq ⊢
                  omega
                · simp only [leaf_offset] at hjq ⊢
                  omega
              rw [← hqa] at hlq
              omega
      · rw [if_neg hD, Nat.zero_testBit] at h2
        cases h2
    · -- the ancestor-chain masks of b live strictly above the row containers
      by_cases h1 : (croot H b == 1) = true
      · rw [if_pos h1, Nat.zero_testBit] at h2
        cases h2
      · rw [if_neg h1] at h2
        have hr2 : 2 ≤ croot H b := by
          have hne : croot H b ≠ 1 := by
            intro he
            rw [he] at h1
            exact h1 rfl
          omega
        obtain ⟨p, hpmem, hpD, _⟩ := cp_mask_support H (croot H b) (croot H b) (croot H a) j
          hr2 hcrb.2.2.2 (by omega) h2
        have hpf := cp_chain_facts H (croot H b) (croot H b) hr2 hcrb.2.2.2 (by omega) p hpmem
        have hlt : Nat.log2 (croot H p) < Nat.log2 (croot H b) := hpf.2.2.2.2.2.2.2.1
        have hlra : Nat.log2 (croot H a) = m - m % 4 := by
          rw [hcra.2.2.1, hla]
        have hlrb : Nat.log2 (croot H b) = m - m % 4 := by
          rw [hcrb.2.2.1, hlb]
        rw [hpD] at hlra
        omega

/-! ## Sequential runs of `check_parent` and `try_alloc_node` -/

theorem check_parent_go_run (H : Nat) :
    ∀ fuel i st, 2 ≤ i → Nat.log2 i % 4 = 0 → Nat.log2 i ≤ H →
      (∀ p ∈ cp_chain H fuel i,
        (st (croot H p)).testBit (leaf_offset (cpos H p) + 4) = false) →
      (∀ p ∈ cp_chain H fuel i,
        (st (croot H p)).testBit (leaf_offset (cpos H p) + 2) = false ∧
        (st (croot H p)).testBit (leaf_offset (cpos H p) + 3) = false) →
      check_parent_go H fuel i st = (none, fun D => st D ||| cp_mask_go H fuel i D) := by
  intro fuel
  induction fuel with
  | zero =>
    intro i st _ _ _ _ _
    rw [check_parent_go, cp_mask_go]
    refine congrArg _ ?_
    funext D
    rw [Nat.or_zero]
  | succ fuel ih =>
    intro i st h2 h0 hH hocc hcoal
    have hchainhead : ∀ x, x ∈ cp_chain H (fuel + 1) i ↔
        (x = i / 2 ∨ (¬ (croot H (i / 2) == 1) = true ∧ x ∈ cp_chain H fuel (croot H (i / 2)))) := by
      intro x
      rw [cp_chain, if_neg (by omega : ¬ i < 2)]
      by_cases hd1 : (croot H (i / 2) == 1) = true
      · rw [if_pos hd1]
        simp [hd1]
      · rw [if_neg hd1]
        simp [hd1]
    have hpmem : i / 2 ∈ cp_chain H (fuel + 1) i := (hchainhead (i / 2)).mpr (Or.inl rfl)
    have hf := cp_chain_facts H (fuel + 1) i h2 h0 hH (i / 2) hpmem
    have hp8 : 8 ≤ cpos H (i / 2) := hf.2.1
    have hoccp := hocc (i / 2) hpmem
    have hcoalp := hcoal (i / 2) hpmem
    have hoccb : is_occupied (st (croot H (i / 2))) (cpos H (i / 2)) = false := by
      rcases hx : is_occupied (st (croot H (i / 2))) (cpos H (i / 2)) with _ | _
      · rfl
      · rw [(is_occupied_leaf_iff _ _ hp8).mp hx] at hoccp
        cases hoccp
    rw [check_parent_go, cp_mask_go]
    rw [if_neg (by omega : ¬ i < 2), if_neg (by omega : ¬ i < 2)]
    rw [if_neg (by rw [hoccb]; exact Bool.false_ne_true)]
    have hwcl : (if (i / 2) * 2 == i then
        occupy_left (clean_left_coalesce (st (croot H (i / 2))) (cpos H (i / 2)))
          (cpos H (i / 2))
        else occupy_rigth (clean_rigth_coalesce (st (croot H (i / 2))) (cpos H (i / 2)))
          (cpos H (i / 2))) =
        st (croot H (i / 2)) |||
          (if (i / 2) * 2 == i then LEFT_OCCUPIED <<< leaf_offset (cpos H (i / 2))
           else RIGHT_OCCUPIED <<< leaf_offset (cpos H (i / 2))) := by
      by_cases hside : ((i / 2) * 2 == i) = true
      · rw [if_pos hside, if_pos hside, occupy_left,
          clean_left_coalesce_id _ _ hcoalp.2]
      · rw [if_neg hside, if_neg hside, occupy_rigth,
          clean_rigth_coalesce_id _ _ hcoalp.1]
    rw [hwcl]
    simp only [lock_not_leaf]
    by_cases hd1 : (croot H (i / 2) == 1) = true
    · rw [if_pos hd1, if_pos hd1]
      refine congrArg _ ?_
      funext D
      by_cases hD : D = croot H (i / 2)
      · rw [if_pos hD, hD]
        simp only [setW, eq_self_iff_true, if_true]
        simp only [Nat.or_assoc]
      · rw [if_neg hD]
        simp only [setW, if_neg hD]
        rw [Nat.or_zero]
    · rw [if_neg hd1, if_neg hd1]
      have hcf := croot_facts H (i / 2) (by omega) (by
        have := log2_half i h2
        omega)
      have hd2 : 2 ≤ croot H (i / 2) := by
        have hne : croot H (i / 2) ≠ 1 := by
          intro he
          rw [he] at hd1
          exact hd1 rfl
        omega
      have hstf : ∀ p ∈ cp_chain H fuel (croot H (i / 2)),
          setW st (croot H (i / 2)) (st (croot H (i / 2)) |||
            ((if (i / 2) * 2 == i then LEFT_OCCUPIED <<< leaf_offset (cpos H (i / 2))
              else RIGHT_OCCUPIED <<< leaf_offset (cpos H (i / 2))) |||
              (0x1 <<< (cpos H (i / 2 / 2) - 1)) |||
              (0x1 <<< (cpos H (i / 2 / 4) - 1)) |||
              (0x1 <<< (cpos H (croot H (i / 2)) - 1)))) (croot H p) = st (croot H p) := by
        intro p hp
        have hpf := cp_chain_facts H fuel (croot H (i / 2)) hd2 hcf.2.2.2 (by
          have := hf.2.2.2.2.2.2.2.2.2.1
          omega) p hp
        have hne : croot H p ≠ croot H (i / 2) := by
          intro he
          have h1' := hpf.2.2.2.2.2.2.2.1
          rw [he] at h1'
          omega
        simp only [setW, if_neg hne]
      have ihres := ih (croot H (i / 2))
        (setW st (croot H (i / 2)) (st (croot H (i / 2)) |||
          ((if (i / 2) * 2 == i then LEFT_OCCUPIED <<< leaf_offset (cpos H (i / 2))
            else RIGHT_OCCUPIED <<< leaf_offset (cpos H (i / 2))) |||
            (0x1 <<< (cpos H (i / 2 / 2) - 1)) |||
            (0x1 <<< (cpos H (i / 2 / 4) - 1)) |||
            (0x1 <<< (cpos H (croot H (i / 2)) - 1)))))
        hd2 hcf.2.2.2 (by
          have := hf.2.2.2.2.2.2.2.2.2.1
          omega)
        (fun p hp => by
          rw [hstf p hp]
          exact hocc p ((hchainhead p).mpr (Or.inr ⟨hd1, hp⟩)))
        (fun p hp => by
          rw [hstf p hp]
          exact hcoal p ((hchainhead p).mpr (Or.inr ⟨hd1, hp⟩)))
      have harg : setW st (croot H (i / 2))
          (st (croot H (i / 2)) |||
            (if (i / 2) * 2 == i then LEFT_OCCUPIED <<< leaf_offset (cpos H (i / 2))
             else RIGHT_OCCUPIED <<< leaf_offset (cpos H (i / 2))) |||
            0x1 <<< (cpos H (i / 2 / 2) - 1) |||
            0x1 <<< (cpos H (i / 2 / 4) - 1) |||
            0x1 <<< (cpos H (croot H (i / 2)) - 1)) =
          setW st (croot H (i / 2))
            (st (croot H (i / 2)) |||
              ((if (i / 2) * 2 == i then LEFT_OCCUPIED <<< leaf_offset (cpos H (i / 2))
                else RIGHT_OCCUPIED <<< leaf_offset (cpos H (i / 2))) |||
                (0x1 <<< (cpos H (i / 2 / 2) - 1)) |||
                (0x1 <<< (cpos H (i / 2 / 4) - 1)) |||
                (0x1 <<< (cpos H (croot H (i / 2)) - 1)))) := by
        refine congrArg _ ?_
        simp only [Nat.or_assoc]
      rw [harg, ihres]
      refine congrArg _ ?_
      funext D
      by_cases hD : D = croot H (i / 2)
      · rw [if_pos hD]
        simp only [setW, hD, eq_self_iff_true, if_true]
        simp only [Nat.or_assoc]
      · rw [if_neg hD]
        simp only [setW, if_neg hD]
        rw [Nat.zero_or]

theorem try_alloc_run (H i : Nat) (st : St) (h1 : 1 ≤ i) (hH : Nat.log2 i ≤ H)
    (halloc : is_allocable (st (croot H i)) (cpos H i) = true)
    (hocc : ∀ p ∈ cp_chain H (croot H i) (croot H i),
      (st (croot H p)).testBit (leaf_offset (cpos H p) + 4) = false)
    (hcoal : ∀ p ∈ cp_chain H (croot H i) (croot H i),
      (st (croot H p)).testBit (leaf_offset (cpos H p) + 2) = false ∧
      (st (croot H p)).testBit (leaf_offset (cpos H p) + 3) = false) :
    try_alloc_node H i st = (none, fun D => st D ||| alloc_delta H i D) := by
  have hchain : ∀ v, lock_chain H (croot H i) i v = v ||| chain_mask (cpos H i) := fun v =>
    by rw [lock_chain, lock_chain_run H i i v h1 hH (le_refl i)]
  have hw : (if cpos H i ≥ 8 then
        lock_leaf (lock_chain H (croot H i) i (st (croot H i))) (cpos H i)
      else if 2 * i < node_count H then
        lock_descendants H i
          (lock_not_leaf (lock_chain H (croot H i) i (st (croot H i))) (cpos H i))
      else lock_not_leaf (lock_chain H (croot H i) i (st (croot H i))) (cpos H i)) =
      st (croot H i) ||| local_mask H i := by
    simp only [local_mask]
    by_cases h8 : cpos H i ≥ 8
    · rw [if_pos h8, if_pos h8, lock_leaf, lock_leaf, hchain, hchain, Nat.zero_or,
        Nat.or_assoc]
    · rw [if_neg h8, if_neg h8]
      by_cases hc : 2 * i < node_count H
      · rw [if_pos hc, if_pos hc]
        simp only [lock_descendants]
        rw [lock_descendants_go_or H 4 i
            (lock_not_leaf (lock_chain H (croot H i) i (st (croot H i))) (cpos H i)),
          lock_descendants_go_or H 4 i
            (lock_not_leaf (lock_chain H (croot H i) i 0) (cpos H i)),
          lock_not_leaf, lock_not_leaf, hchain, hchain, Nat.zero_or]
        simp only [Nat.or_assoc]
      · rw [if_neg hc, if_neg hc, lock_not_leaf, lock_not_leaf, hchain, hchain,
          Nat.zero_or, Nat.or_assoc]
  simp only [try_alloc_node]
  rw [halloc]
  simp only [Bool.not_true, Bool.false_eq_true, if_false]
  rw [hw]
  by_cases hroot : (croot H i == 1) = true
  · rw [if_pos hroot]
    refine congrArg _ ?_
    funext D
    rw [alloc_delta, if_pos hroot, Nat.or_zero]
    by_cases hD : D = croot H i
    · rw [if_pos hD, hD]
      simp only [setW, eq_self_iff_true, if_true]
    · rw [if_neg hD]
      simp only [setW, if_neg hD]
      rw [Nat.or_zero]
  · rw [if_neg hroot]
    have hcf := croot_facts H i h1 hH
    have hr2 : 2 ≤ croot H i := by
      have hne : croot H i ≠ 1 := by
        intro he
        rw [he] at hroot
        exact hroot rfl
      omega
    have hstf : ∀ p ∈ cp_chain H (croot H i) (croot H i),
        setW st (croot H i) (st (croot H i) ||| local_mask H i) (croot H p) =
          st (croot H p) := by
      intro p hp
      have hpf := cp_chain_facts H (croot H i) (croot H i) hr2 hcf.2.2.2 (by
        have := hcf.2.2.1
        omega) p hp
      have hne : croot H p ≠ croot H i := by
        intro he
        have hlt := hpf.2.2.2.2.2.2.2.1
        rw [he] at hlt
        omega
      simp only [setW, if_neg hne]
    rw [check_parent]
    rw [check_parent_go_run H (croot H i) (croot H i)
      (setW st (croot H i) (st (croot H i) ||| local_mask H i)) hr2 hcf.2.2.2
      (by have := hcf.2.2.1; omega)
      (fun p hp => by rw [hstf p hp]; exact hocc p hp)
      (fun p hp => by rw [hstf p hp]; exact hcoal p hp)]
    show ((none : Option Nat), fun D =>
        setW st (croot H i) (st (croot H i) ||| local_mask H i) D |||
          cp_mask_go H (croot H i) (croot H i) D) =
      (none, fun D => st D ||| alloc_delta H i D)
    refine congrArg _ ?_
    funext D
    rw [alloc_delta, if_neg hroot, cp_mask]
    by_cases hD : D = croot H i
    · rw [if_pos hD, hD]
      simp only [setW, eq_self_iff_true, if_true]
      simp only [Nat.or_assoc]
    · rw [if_neg hD]
      simp only [setW, if_neg hD]
      rw [Nat.zero_or]

theorem try_alloc_fail (H i : Nat) (st : St)
    (h : is_allocable (st (croot H i)) (cpos H i) = false) :
    try_alloc_node H i st = (some i, st) := by
  simp only [try_alloc_node]
  rw [h]
  simp only [Bool.not_false, if_true]

/-! ## Allocability in a pure row-allocation state -/

theorem word_allocable (H m : Nat) (hm : m ≤ H) (L : List Nat)
    (hL : ∀ b ∈ L, 2 ^ m ≤ b ∧ b < 2 ^ (m + 1)) (a : Nat)
    (ha : 2 ^ m ≤ a ∧ a < 2 ^ (m + 1)) (hmem : a ∉ L) :
    is_allocable (word_of H L (croot H a)) (cpos H a) = true := by
  have hpow1 : (1 : Nat) ≤ 2 ^ m := Nat.one_le_two_pow
  have ha1 : 1 ≤ a := by omega
  have hla : Nat.log2 a = m := log2_eq_of_range a m ha.1 ha.2
  have haH : Nat.log2 a ≤ H := by omega
  have hba := cpos_lt_16 H a ha1 haH
  have hbit : ∀ j, ((cpos H a < 8 ∧ j + 1 = cpos H a) ∨
      (8 ≤ cpos H a ∧ leaf_offset (cpos H a) ≤ j ∧ j ≤ leaf_offset (cpos H a) + 4)) →
      (word_of H L (croot H a)).testBit j = false := by
    intro j hj
    rcases hx : (word_of H L (croot H a)).testBit j with _ | _
    · rfl
    · obtain ⟨b, hbL, hbb⟩ := (word_of_tb H L (croot H a) j).mp hx
      have hab : a ≠ b := fun he => hmem (he ▸ hbL)
      rw [delta_foreign_row H m a b j hm ha (hL b hbL) hab hj] at hbb
      cases hbb
  by_cases h8 : cpos H a < 8
  · rw [is_allocable_nonleaf_iff _ _ h8]
    exact hbit (cpos H a - 1) (Or.inl ⟨h8, by omega⟩)
  · rw [is_allocable_leaf_iff _ _ (by omega)]
    intro t ht
    exact hbit (leaf_offset (cpos H a) + t) (Or.inr ⟨by omega, by omega, by omega⟩)

theorem word_not_allocable (H m : Nat) (hm : m ≤ H) (L : List Nat) (a : Nat)
    (ha : 2 ^ m ≤ a ∧ a < 2 ^ (m + 1)) (hmem : a ∈ L) :
    is_allocable (word_of H L (croot H a)) (cpos H a) = false := by
  have hpow1 : (1 : Nat) ≤ 2 ^ m := Nat.one_le_two_pow
  have ha1 : 1 ≤ a := by omega
  have hla : Nat.log2 a = m := log2_eq_of_range a m ha.1 ha.2
  have haH : Nat.log2 a ≤ H := by omega
  rcases hx : is_allocable (word_of H L (croot H a)) (cpos H a) with _ | _
  · rfl
  · exfalso
    by_cases h8 : cpos H a < 8
    · have hfree := (is_allocable_nonleaf_iff _ _ h8).mp hx
      have hset : (word_of H L (croot H a)).testBit (cpos H a - 1) = true :=
        (word_of_tb H L (croot H a) _).mpr ⟨a, hmem, delta_own_nonleaf H a h8⟩
      rw [hset] at hfree
      cases hfree
    · have hfree := (is_allocable_leaf_iff _ _ (by omega)).mp hx 0 (by norm_num)
      have hset : (word_of H L (croot H a)).testBit (leaf_offset (cpos H a)) = true :=
        (word_of_tb H L (croot H a) _).mpr ⟨a, hmem, delta_own_leaf H a (by omega)⟩
      rw [Nat.add_zero] at hfree
      rw [hset] at hfree
      cases hfree

theorem word_chain_clear (H m : Nat) (hm : m ≤ H) (L : List Nat)
    (hL : ∀ b ∈ L, 2 ^ m ≤ b ∧ b < 2 ^ (m + 1)) (a : Nat)
    (ha : 2 ^ m ≤ a ∧ a < 2 ^ (m + 1)) (hr2 : 2 ≤ croot H a) :
    ∀ p ∈ cp_chain H (croot H a) (croot H a),
      ((word_of H L (croot H p)).testBit (leaf_offset (cpos H p) + 4) = false) ∧
      ((word_of H L (croot H p)).testBit (leaf_offset (cpos H p) + 2) = false) ∧
      ((word_of H L (croot H p)).testBit (leaf_offset (cpos H p) + 3) = false) := by
  have hpow1 : (1 : Nat) ≤ 2 ^ m := Nat.one_le_two_pow
  have ha1 : 1 ≤ a := by omega
  have hla : Nat.log2 a = m := log2_eq_of_range a m ha.1 ha.2
  have haH : Nat.log2 a ≤ H := by omega
  have hcra := croot_facts H a ha1 haH
  intro p hp
  have hpf := cp_chain_facts H (croot H a) (croot H a) hr2 hcra.2.2.2 (by
    have := hcra.2.2.1
    omega) p hp
  have hp8 : 8 ≤ cpos H p := hpf.2.1
  have hDlt : Nat.log2 (croot H p) < Nat.log2 (croot H a) := hpf.2.2.2.2.2.2.2.1
  have hforeign : ∀ b ∈ L, croot H p ≠ croot H b := by
    intro b hbL he
    have hb1 : 1 ≤ b := by
      have := (hL b hbL).1
      omega
    have hlb : Nat.log2 b = m := log2_eq_of_range b m (hL b hbL).1 (hL b hbL).2
    have hbH : Nat.log2 b ≤ H := by omega
    have hcrb := croot_facts H b hb1 hbH
    rw [he] at hDlt
    have h1' : Nat.log2 (croot H b) = m - m % 4 := by
      rw [hcrb.2.2.1, hlb]
    have h2' : Nat.log2 (croot H a) = m - m % 4 := by
      rw [hcra.2.2.1, hla]
    omega
  have hfalse : ∀ j, 7 ≤ j →
      ((j - 7) % 5 = 2 ∨ (j - 7) % 5 = 3 ∨ (j - 7) % 5 = 4) →
      (word_of H L (croot H p)).testBit j = false := by
    intro j hj7 hj5
    rcases hx : (word_of H L (croot H p)).testBit j with _ | _
    · rfl
    · obtain ⟨b, hbL, hbb⟩ := (word_of_tb H L (croot H p) j).mp hx
      have hb1 : 1 ≤ b := by
        have := (hL b hbL).1
        omega
      have hlb : Nat.log2 b = m := log2_eq_of_range b m (hL b hbL).1 (hL b hbL).2
      have hbH : Nat.log2 b ≤ H := by omega
      rcases hj5 with hj5 | hj5 | hj5
      · rw [delta_coalesce_false H b (croot H p) j hb1 hbH hj7 (Or.inl hj5)] at hbb
        cases hbb
      · rw [delta_coalesce_false H b (croot H p) j hb1 hbH hj7 (Or.inr hj5)] at hbb
        cases hbb
      · rw [delta_leaflock_false H b (croot H p) j hb1 hbH (hforeign b hbL) hj7 hj5] at hbb
        cases hbb
  refine ⟨?_, ?_, ?_⟩
  · exact hfalse _ (by simp only [leaf_offset]; omega) (by simp only [leaf_offset]; omega)
  · exact hfalse _ (by simp only [leaf_offset]; omega) (by simp only [leaf_offset]; omega)
  · exact hfalse _ (by simp only [leaf_offset]; omega) (by simp only [leaf_offset]; omega)

/-! ## The row scan of `alloc` -/

theorem alloc_loop_step_ok (H base sn ln sa fuel a : Nat) (restarted : Bool) (st st2 : St)
    (htry : try_alloc_node H a st = (none, st2)) :
    alloc_loop H base sn ln sa (fuel + 1) a restarted st =
      (some (base + nstart H a), st2) := by
  simp only [alloc_loop, htry]

theorem alloc_loop_step_fail (H base sn ln sa fuel a : Nat) (restarted : Bool)
    (st : St) (i : Nat) (st2 : St)
    (htry : try_alloc_node H a st = (some i, st2)) :
    alloc_loop H base sn ln sa (fuel + 1) a restarted st =
      (if i == 1 then (none, st2)
       else
        if !(if (i + 1) * (1 <<< (level H a - level H i)) > ln then true else restarted)
            || (if (i + 1) * (1 <<< (level H a - level H i)) > ln then sn
                else (i + 1) * (1 <<< (level H a - level H i))) < sa then
          alloc_loop H base sn ln sa fuel
            (if (i + 1) * (1 <<< (level H a - level H i)) > ln then sn
             else (i + 1) * (1 <<< (level H a - level H i)))
            (if (i + 1) * (1 <<< (level H a - level H i)) > ln then true else restarted) st2
        else (none, st2)) := by
  simp only [alloc_loop, htry]

theorem scan_run (H base m : Nat) (hm : m ≤ H) (L : List Nat)
    (hL : ∀ b ∈ L, 2 ^ m ≤ b ∧ b < 2 ^ (m + 1)) (a0 : Nat)
    (ha0 : 2 ^ m ≤ a0 ∧ a0 < 2 ^ (m + 1)) :
    ∀ fuel a restarted,
      (restarted = false → a0 ≤ a ∧ a < 2 ^ (m + 1)) →
      (restarted = true → 2 ^ m ≤ a ∧ a < a0) →
      (if restarted then a0 - a else (2 ^ (m + 1) - a) + (a0 - 2 ^ m)) < fuel →
      (∃ x, 2 ^ m ≤ x ∧ x < 2 ^ (m + 1) ∧ x ∉ L ∧
        alloc_loop H base (2 ^ m) (2 ^ (m + 1) - 1) a0 fuel a restarted (word_of H L) =
          (some (base + nstart H x), word_of H (x :: L))) ∨
      ((∀ x, (if restarted then a ≤ x ∧ x < a0
          else (a ≤ x ∧ x < 2 ^ (m + 1)) ∨ (2 ^ m ≤ x ∧ x < a0)) → x ∈ L) ∧
        alloc_loop H base (2 ^ m) (2 ^ (m + 1) - 1) a0 fuel a restarted (word_of H L) =
          (none, word_of H L)) := by
  intro fuel
  induction fuel with
  | zero =>
    intro a restarted h1 h2 hfuel
    cases restarted
    · simp only [Bool.false_eq_true, if_false] at hfuel
      omega
    · simp only [if_true] at hfuel
      omega
  | succ fuel ih =>
    intro a restarted h1 h2 hfuel
    have hpow1 : (1 : Nat) ≤ 2 ^ m := Nat.one_le_two_pow
    have hpows : (2 : Nat) ^ (m + 1) = 2 * 2 ^ m := by rw [pow_succ]; ring
    have hrow : 2 ^ m ≤ a ∧ a < 2 ^ (m + 1) := by
      cases restarted
      · have := h1 rfl
        omega
      · have := h2 rfl
        omega
    have ha1 : 1 ≤ a := by omega
    have hla : Nat.log2 a = m := log2_eq_of_range a m hrow.1 hrow.2
    have haH : Nat.log2 a ≤ H := by omega
    by_cases hmem : a ∈ L
    · -- the slot is taken: the scan skips to the next row node
      have htry : try_alloc_node H a (word_of H L) = (some a, word_of H L) :=
        try_alloc_fail H a _ (word_not_allocable H m hm L a hrow hmem)
      rw [alloc_loop_step_fail H base (2 ^ m) (2 ^ (m + 1) - 1) a0 fuel a restarted
        _ a _ htry]
      have ha2 : (a + 1) * (1 <<< (level H a - level H a)) = a + 1 := by
        rw [Nat.sub_self]
        simp
      rw [ha2]
      by_cases hone : (a == 1) = true
      · -- the conflict reached the global root: out of memory
        have hae : a = 1 := beq_iff_eq.mp hone
        rw [if_pos hone]
        cases restarted
        · refine Or.inr ⟨?_, rfl⟩
          intro x hx
          simp only [Bool.false_eq_true, if_false] at hx
          have h2m : 2 ^ m ≤ 1 := by omega
          rcases hx with hx | hx
          · have : x = a := by omega
            rw [this]
            exact hmem
          · have : a0 = 1 := by omega
            omega
        · have := h2 rfl
          have h2m : 2 ^ m ≤ 1 := by omega
          omega
      · rw [if_neg hone]
        have hane : a ≠ 1 := fun he => hone (beq_iff_eq.mpr he)
        by_cases hwrap : a + 1 > 2 ^ (m + 1) - 1
        · -- wrap back to the start of the row
          have haend : a = 2 ^ (m + 1) - 1 := by omega
          have hres : restarted = false := by
            cases restarted
            · rfl
            · have := h2 rfl
              omega
          subst hres
          rw [if_pos hwrap, if_pos hwrap]
          by_cases hcont : 2 ^ m < a0
          · have hcond : (!(true : Bool) || decide (2 ^ m < a0)) = true := by
              simp [hcont]
            rw [if_pos hcond]
            rcases ih (2 ^ m) true (fun he => by cases he) (fun _ => ⟨le_refl _, hcont⟩)
              (by
                simp only [if_true]
                simp only [Bool.false_eq_true, if_false] at hfuel
                omega)
              with ⟨x, hx1, hx2, hx3, heq⟩ | ⟨hAll, heq⟩
            · exact Or.inl ⟨x, hx1, hx2, hx3, heq⟩
            · refine Or.inr ⟨?_, heq⟩
              intro x hx
              simp only [Bool.false_eq_true, if_false] at hx
              rcases hx with hx | hx
              · have : x = a := by omega
                rw [this]
                exact hmem
              · exact hAll x (by simp only [if_true]; omega)
          · have hcond : (!(true : Bool) || decide (2 ^ m < a0)) = false := by
              simp [hcont]
            rw [if_neg (by rw [hcond]; exact Bool.false_ne_true)]
            refine Or.inr ⟨?_, rfl⟩
            intro x hx
            simp only [Bool.false_eq_true, if_false] at hx
            rcases hx with hx | hx
            · have : x = a := by omega
              rw [this]
              exact hmem
            · omega
        · rw [if_neg hwrap, if_neg hwrap]
          cases restarted
          · -- still in the first pass: always continue
            have hcond : (!(false : Bool) || decide (a + 1 < a0)) = true := by simp
            rw [if_pos hcond]
            have h1' := h1 rfl
            rcases ih (a + 1) false (fun _ => ⟨by omega, by omega⟩) (fun he => by cases he)
              (by
                simp only [Bool.false_eq_true, if_false] at hfuel ⊢
                omega)
              with ⟨x, hx1, hx2, hx3, heq⟩ | ⟨hAll, heq⟩
            · exact Or.inl ⟨x, hx1, hx2, hx3, heq⟩
            · refine Or.inr ⟨?_, heq⟩
              intro x hx
              simp only [Bool.false_eq_true, if_false] at hx
              rcases hx with hx | hx
              · by_cases hxa : x = a
                · rw [hxa]
                  exact hmem
                · exact hAll x (by simp only [Bool.false_eq_true, if_false]; omega)
              · exact hAll x (by simp only [Bool.false_eq_true, if_false]; omega)
          · have h2' := h2 rfl
            by_cases hnext : a + 1 < a0
            · have hcond : (!(true : Bool) || decide (a + 1 < a0)) = true := by
                simp [hnext]
              rw [if_pos hcond]
              rcases ih (a + 1) true (fun he => by cases he) (fun _ => ⟨by omega, hnext⟩)
                (by
                  simp only [if_true] at hfuel ⊢
                  omega)
                with ⟨x, hx1, hx2, hx3, heq⟩ | ⟨hAll, heq⟩
              · exact Or.inl ⟨x, hx1, hx2, hx3, heq⟩
              · refine Or.inr ⟨?_, heq⟩
                intro x hx
                simp only [if_true] at hx
                by_cases hxa : x = a
                · rw [hxa]
                  exact hmem
                · exact hAll x (by simp only [if_true]; omega)
            · have hcond : (!(true : Bool) || decide (a + 1 < a0)) = false := by
                simp [hnext]
              rw [if_neg (by rw [hcond]; exact Bool.false_ne_true)]
              refine Or.inr ⟨?_, rfl⟩
              intro x hx
              simp only [if_true] at hx
              have : x = a := by omega
              rw [this]
              exact hmem
    · -- the slot is free: the allocation commits its delta
      have halloc := word_allocable H m hm L hL a hrow hmem
      have hchain1 : cp_chain H 1 1 = ([] : List Nat) := rfl
      have hocc : ∀ p ∈ cp_chain H (croot H a) (croot H a),
          (word_of H L (croot H p)).testBit (leaf_offset (cpos H p) + 4) = false := by
        intro p hp
        by_cases hr2 : 2 ≤ croot H a
        · exact (word_chain_clear H m hm L hL a hrow hr2 p hp).1
        · have hcr1 := (croot_facts H a ha1 haH).1
          have he : croot H a = 1 := by omega
          rw [he, hchain1] at hp
          cases hp
      have hcoal : ∀ p ∈ cp_chain H (croot H a) (croot H a),
          (word_of H L (croot H p)).testBit (leaf_offset (cpos H p) + 2) = false ∧
          (word_of H L (croot H p)).testBit (leaf_offset (cpos H p) + 3) = false := by
        intro p hp
        by_cases hr2 : 2 ≤ croot H a
        · exact ⟨(word_chain_clear H m hm L hL a hrow hr2 p hp).2.1,
            (word_chain_clear H m hm L hL a hrow hr2 p hp).2.2⟩
        · have hcr1 := (croot_facts H a ha1 haH).1
          have he : croot H a = 1 := by omega
          rw [he, hchain1] at hp
          cases hp
      have htry := try_alloc_run H a (word_of H L) ha1 haH halloc hocc hcoal
      rw [alloc_loop_step_ok H base (2 ^ m) (2 ^ (m + 1) - 1) a0 fuel a restarted
        _ _ htry]
      refine Or.inl ⟨a, hrow.1, hrow.2, hmem, ?_⟩
      refine congrArg _ ?_
      funext D
      rw [word_of_cons, Nat.or_comm]

end LFB
